import Mathlib

/-!
Verification of the Clipper bot (`clipper_bot.py`).

The Python helpers are shallowly embedded as executable Lean functions over
`List Char` / `Nat`.  Modelling conventions, once and for all:

* Python whitespace (`str.strip`, `\s`) is modelled by the ASCII whitespace
  characters space, tab, newline, carriage return, vertical tab and form feed;
  Python `str.upper()` followed by case-sensitive letter tests is embedded as
  case-insensitive letter tests (extensionally the same on ASCII input, which
  is the only input the letter tests can accept anyway).
* Python integers are `Nat` (all quantities involved are non-negative);
  `Int` is used where an intermediate value can go negative.
* Fallible functions return `Option`.
-/

namespace Clipper

/-- ASCII whitespace, the model of Python `\s` / `str.strip`. -/
def isWsChar (c : Char) : Bool :=
  c == ' ' || c == '\t' || c == '\n' || c == '\r' || c == '\x0b' || c == '\x0c'

/-- Characters of the range-delimiter class `[-–to:aws]` of
`re.split(r'\s*[-–to:aws]+\s*', s, flags=re.I)` in `parse_range`
(case-insensitive, so both cases of each letter). -/
def isDelimChar (c : Char) : Bool :=
  c == '-' || c == '–' || c == 't' || c == 'T' || c == 'o' || c == 'O' ||
  c == ':' || c == 'a' || c == 'A' || c == 'w' || c == 'W' || c == 's' || c == 'S'

/-- Characters of the time-token class `[\dHMS:]` of
`re.findall(r'[\dHMS:]+', s, flags=re.I)` in `parse_range`. -/
def isTimeChar (c : Char) : Bool :=
  c.isDigit || c == 'H' || c == 'h' || c == 'M' || c == 'm' ||
  c == 'S' || c == 's' || c == ':'

/-- Python `str.strip()` (ASCII whitespace model). -/
def pyStrip (l : List Char) : List Char :=
  ((l.dropWhile isWsChar).reverse.dropWhile isWsChar).reverse

/-- Decimal value of a digit string, the model of Python `int` on an
all-digit string (leading zeros allowed). -/
def toNum (l : List Char) : Nat :=
  l.foldl (fun a c => a * 10 + (c.toNat - 48)) 0

/-- One optional group `(?:(\d+)X)?` of the `H`/`M`/`S` regex: if the maximal
digit run at the head is non-empty and followed by the letter tested by `p`,
consume both and return the run's value; otherwise the group matches empty.
Greedy matching is complete here: a shorter digit run is still followed by a
digit, never by the letter, so backtracking can never succeed where the
maximal run fails. -/
def hmsStep (p : Char → Bool) (l : List Char) : Option (Nat × List Char) :=
  let d := l.takeWhile Char.isDigit
  match l.dropWhile Char.isDigit with
  | x :: r => if d ≠ [] ∧ p x then some (toNum d, r) else none
  | [] => none

/-- Case-insensitive letter tests (the model of `.upper()` + comparison). -/
def isHch (c : Char) : Bool := c == 'H' || c == 'h'

/-- Case-insensitive `M` test. -/
def isMch (c : Char) : Bool := c == 'M' || c == 'm'

/-- Case-insensitive `S` test. -/
def isSch (c : Char) : Bool := c == 'S' || c == 's'

/-- One optional group together with its effect on the scan position:
the captured value (if the group matched) and the remaining input. -/
def hmsGroup (p : Char → Bool) (l : List Char) : Option Nat × List Char :=
  match hmsStep p l with
  | some (v, r) => (some v, r)
  | none => (none, l)

/-- The anchored regex `(?:(\d+)H)?(?:(\d+)M)?(?:(\d+)S)?$` of
`parse_time_to_seconds`, together with the `m.group(1) or m.group(2) or
m.group(3)` guard: at least one group must be present and the whole string
must be consumed.  Returns `h*3600 + m*60 + s`. -/
def hmsMatch (l : List Char) : Option Nat :=
  let (h, l1) := hmsGroup isHch l
  let (m, l2) := hmsGroup isMch l1
  let (s, l3) := hmsGroup isSch l2
  if l3 = [] ∧ (h.isSome ∨ m.isSome ∨ s.isSome) then
    some (h.getD 0 * 3600 + m.getD 0 * 60 + s.getD 0)
  else none

/-- Python `str.split(":")`: split at every single colon, keeping empty
pieces (so `"a::b"` gives `["a","","b"]`). -/
def splitOnColon : List Char → List (List Char)
  | [] => [[]]
  | c :: r =>
    if c = ':' then [] :: splitOnColon r
    else match splitOnColon r with
      | [] => [[c]]
      | p :: ps => (c :: p) :: ps

/-- Python `p.strip().isdigit()` (ASCII model): non-empty and all digits
after stripping. -/
def stripIsDigit (p : List Char) : Bool :=
  !(pyStrip p).isEmpty && (pyStrip p).all Char.isDigit

/-- `parse_time_to_seconds` from `clipper_bot.py`: strip (and conceptually
upper-case, embedded case-insensitively), try the `H`/`M`/`S` regex, then the
colon form (`mm:ss` or `hh:mm:ss`, keeping only the numeric fields), then a
bare non-negative integer. -/
def parse_time_to_seconds (l : List Char) : Option Nat :=
  let t := pyStrip l
  match hmsMatch t with
  | some v => some v
  | none =>
    let colonRes : Option Nat :=
      if t.contains ':' then
        match (splitOnColon t).filter stripIsDigit with
        | [p1, p2] => some (toNum (pyStrip p1) * 60 + toNum (pyStrip p2))
        | [p1, p2, p3] =>
            some (toNum (pyStrip p1) * 3600 + toNum (pyStrip p2) * 60 + toNum (pyStrip p3))
        | _ => none
      else none
    match colonRes with
    | some v => some v
    | none => if t ≠ [] ∧ t.all Char.isDigit then some (toNum t) else none

/-- Worker for `re.split(r'\s*[-–to:aws]+\s*', s)`.  The whitespace
preceding a delimiter run belongs to the match (it is removed from the
accumulated part at flush time); the match then consumes the maximal
delimiter run and the maximal following whitespace run, exactly the greedy
`\s*[...]+\s*` semantics.  `cur` is the reversed accumulator of the current
part.  Fuel (`length + 1` at the top call) makes the recursion structural. -/
def sdGo : Nat → List Char → List Char → List (List Char)
  | 0, rest, cur => [cur.reverse ++ rest]
  | _ + 1, [], cur => [cur.reverse]
  | fuel + 1, c :: r, cur =>
    if isDelimChar c then
      (cur.dropWhile isWsChar).reverse ::
        sdGo fuel (((c :: r).dropWhile isDelimChar).dropWhile isWsChar) []
    else
      sdGo fuel r (c :: cur)

/-- `re.split(r'\s*[-–to:aws]+\s*', s, flags=re.I)` on an already stripped
string. -/
def splitDelim (l : List Char) : List (List Char) :=
  sdGo (l.length + 1) l []

/-- Drop the maximal whitespace suffix (the `\s*` that precedes a delimiter
run belongs to the delimiter match). -/
def dropTrailingWs (l : List Char) : List Char :=
  (l.reverse.dropWhile isWsChar).reverse

/-- Worker for `re.findall(r'[\dHMS:]+', s, re.I)`: maximal runs of
time-token characters; `cur` is the reversed accumulator of the current
token. -/
def ftGo : List Char → List Char → List (List Char)
  | [], cur => if cur.isEmpty then [] else [cur.reverse]
  | c :: r, cur =>
    if isTimeChar c then ftGo r (c :: cur)
    else if cur.isEmpty then ftGo r []
    else cur.reverse :: ftGo r []

/-- `re.findall(r'[\dHMS:]+', s, flags=re.I)`. -/
def findTokens (l : List Char) : List (List Char) :=
  ftGo l []

/-- `parse_range` from `clipper_bot.py` over the raw characters: strip,
split on the delimiter pattern; if exactly two parts both parse with
`end > start`, return them; otherwise scan for time-like substrings and use
the first and last when at least two are found, both parse and
`end > start`. -/
def parseRangeChars (l : List Char) : Option (Nat × Nat) :=
  let t := pyStrip l
  let primary : Option (Nat × Nat) :=
    match splitDelim t with
    | [p0, p1] =>
      match parse_time_to_seconds p0, parse_time_to_seconds p1 with
      | some a, some b => if a < b then some (a, b) else none
      | _, _ => none
    | _ => none
  match primary with
  | some r => some r
  | none =>
    let tokens := findTokens t
    match tokens, tokens.getLast? with
    | _ :: _ :: _, some tl =>
      match parse_time_to_seconds (tokens.headI), parse_time_to_seconds tl with
      | some a, some b => if a < b then some (a, b) else none
      | _, _ => none
    | _, _ => none

/-- `parse_range` on a `String`. -/
def parse_range (s : String) : Option (Nat × Nat) :=
  parseRangeChars s.data

/-- Decimal digit character for a digit value (the rendering direction). -/
def digCh (d : Nat) : Char :=
  match d with
  | 0 => '0' | 1 => '1' | 2 => '2' | 3 => '3' | 4 => '4'
  | 5 => '5' | 6 => '6' | 7 => '7' | 8 => '8' | 9 => '9'
  | _ => '0'

/-- Decimal rendering of a natural number, empty for `0` (Python's
zero-padding supplies the digits of `0`). -/
def natChars (n : Nat) : List Char :=
  ((Nat.digits 10 n).reverse).map digCh

/-- Python format spec `{x:02d}`: left-pad with `'0'` to width 2. -/
def pad2 (l : List Char) : List Char :=
  if l.length < 2 then List.replicate (2 - l.length) '0' ++ l else l

/-- `sec_to_hms` from `clipper_bot.py`: `f"{h:02d}:{m:02d}:{ss:02d}"`. -/
def sec_to_hms (s : Nat) : String :=
  String.mk
    (pad2 (natChars (s / 3600)) ++ ':' ::
      pad2 (natChars (s % 3600 / 60)) ++ ':' :: pad2 (natChars (s % 60)))

/-- Modelled from the spec: the SegmentPlanner (its code lies in the part of
`clipper_bot.py` missing from the source snapshot, which is truncated inside
`callback_handler`).  Spec §4.2: if `D ≤ L`, one segment `[0, min(L, D)]`;
otherwise for `i = 1..N` the fractional center is `i/(N+1)`, the candidate
start is `floor(D·i/(N+1)) − L/2`, clamped into `[0, D−L]`; each segment is
`(start, start+L)`. -/
def plan_segments (D L N : Nat) : List (Int × Int) :=
  if D ≤ L then [(0, min (L : Int) (D : Int))]
  else
    (List.range N).map (fun i0 =>
      let i : Int := (i0 : Int) + 1
      let cand : Int := (D : Int) * i / ((N : Int) + 1) - (L : Int) / 2
      let start : Int := max 0 (min cand ((D : Int) - (L : Int)))
      (start, start + (L : Int)))

/-- The per-user selection dictionary `context.user_data["state"]`. -/
structure SelState where
  duration : Option Nat
  custom_range : Option (Nat × Nat)
  count : Option Nat
  format : Option String
  format_label : Option String
deriving DecidableEq, Repr

/-- The fresh selection state `{}` stored right after a link is resolved. -/
def emptySel : SelState := ⟨none, none, none, none, none⟩

/-- The slice of `context.user_data` the selection machinery touches. -/
structure UserData where
  awaitCustomRange : Bool
  sel : SelState
  videoDuration : Nat
  qualities : List (String × String × Nat)
deriving DecidableEq, Repr

/-- Recognized configuration values (`MAX_CLIP_SECONDS`, `MAX_CLIPS`). -/
structure Config where
  maxClipSeconds : Nat
  maxClips : Nat
deriving DecidableEq, Repr

/-- Python truthiness of an optional integer (`None` and `0` are falsy). -/
def natTruthy : Option Nat → Bool
  | none => false
  | some n => n != 0

/-- Python truthiness of an optional string (`None` and `""` are falsy). -/
def strTruthy : Option String → Bool
  | none => false
  | some s => !s.isEmpty

/-- The inline-keyboard buttons of the menu, abstracted from their
`callback_data` strings (distinct constructors model the distinct
`callback_data` values). -/
inductive Button where
  | cancel
  | startClip
  | fullVideo
  | durBtn (n : Nat)
  | customRange
  | countBtn (n : Nat)
  | fmtBtn (id label : String)
deriving DecidableEq, Repr

/-- Group a list into rows of two, the `for i in range(0, len(q[:6]), 2)`
loop of `generate_menu_message`. -/
def chunkPairs {α : Type} : List α → List (List α)
  | [] => []
  | [a] => [[a]]
  | a :: b :: r => [a, b] :: chunkPairs r

/-- `generate_menu_message` from `clipper_bot.py`: returns the selection
state as it stands after the call (the function writes
`state["count"] = 1` whenever a custom range is set) and the keyboard.
Message text is not modelled; the keyboard rows are. -/
def generate_menu_message (cfg : Config) (d : UserData) :
    SelState × List (List Button) :=
  let st := if d.sel.custom_range.isSome then { d.sel with count := some 1 } else d.sel
  let durRow : List Button :=
    [Button.durBtn 5, Button.durBtn 10, Button.durBtn 20, Button.durBtn 30]
  let countRows : List (List Button) :=
    if st.custom_range.isSome then []
    else [(List.range (min cfg.maxClips (max 1 (d.videoDuration / 5)))).map
            (fun i => Button.countBtn (i + 1))]
  let qualityRows : List (List Button) :=
    chunkPairs ((d.qualities.take 6).map (fun q => Button.fmtBtn q.1 q.2.1))
  let ready : Bool :=
    (natTruthy st.duration || st.custom_range.isSome) &&
      natTruthy st.count && strTruthy st.format
  let finalRow : List Button :=
    (if ready then [Button.startClip] else []) ++ [Button.cancel, Button.fullVideo]
  (st, [durRow, [Button.customRange]] ++ countRows ++ qualityRows ++ [finalRow])

/-- Replies the text handler can produce. -/
inductive Reply where
  | parseError
  | rangeTooLong (maxClip : Nat)
  | menuUpdated
  | messageDeleted
deriving DecidableEq, Repr

/-- The awaiting-custom-range branch of `text_handler` (the remaining
branches process YouTube links and are outside the selection machinery
modelled here; they leave the selection state untouched or rebuild it
afresh).  On a parse failure or an over-long range the handler sends an
inline error and returns without touching `user_data`; on success it stores
the range, clears the fixed duration, forces the count to 1 and re-renders
the menu. -/
def text_handler (cfg : Config) (d : UserData) (text : String) :
    UserData × Reply :=
  if d.awaitCustomRange then
    match parse_range text with
    | none => (d, Reply.parseError)
    | some (a, b) =>
      if b - a = 0 ∨ b - a > cfg.maxClipSeconds then
        (d, Reply.rangeTooLong cfg.maxClipSeconds)
      else
        let d1 : UserData :=
          { d with awaitCustomRange := false,
                   sel := { d.sel with custom_range := some (a, b),
                                       duration := none, count := some 1 } }
        ({ d1 with sel := (generate_menu_message cfg d1).1 }, Reply.menuUpdated)
  else (d, Reply.messageDeleted)

/-- Selection-mutating events: the `set:dur:<n>`, `set:dur:custom`,
`set:count:<n>` and `set:fmt:<id>:<label>` button callbacks, a text message
while a custom range is awaited, and the arrival of a freshly resolved
link. -/
inductive Ev where
  | pressDur (n : Nat)
  | pressCustom
  | pressCount (n : Nat)
  | pressFmt (id label : String)
  | rangeText (s : String)
  | newLink (dur : Nat) (qs : List (String × String × Nat))

/-- One step of the selection state machine.  Button handlers follow
`callback_handler`: `set:dur:<n>` stores the duration and clears the custom
range, `set:dur:custom` only raises the awaiting flag (the menu text is
edited in place, state untouched), `set:count:<n>` stores the count.
`set:fmt` stores the format id and label (the label assignment and the
re-render after each button press lie in the truncated tail of the source
file; modelled from spec §4.3: every field-setting event re-renders the same
menu message, i.e. runs `generate_menu_message`).  Text while awaiting a
range follows `text_handler`; a new link rebuilds `user_data` afresh. -/
def step (cfg : Config) (d : UserData) : Ev → UserData
  | Ev.pressDur n =>
    let d1 : UserData :=
      { d with sel := { d.sel with duration := some n, custom_range := none } }
    { d1 with sel := (generate_menu_message cfg d1).1 }
  | Ev.pressCustom => { d with awaitCustomRange := true }
  | Ev.pressCount n =>
    let d1 : UserData := { d with sel := { d.sel with count := some n } }
    { d1 with sel := (generate_menu_message cfg d1).1 }
  | Ev.pressFmt id label =>
    let d1 : UserData :=
      { d with sel := { d.sel with format := some id, format_label := some label } }
    { d1 with sel := (generate_menu_message cfg d1).1 }
  | Ev.rangeText s => (text_handler cfg d s).1
  | Ev.newLink dur qs =>
    { awaitCustomRange := false, sel := emptySel, videoDuration := dur, qualities := qs }

/-- `user_data` right after a link is resolved (`state = {}`). -/
def initUserData (dur : Nat) (qs : List (String × String × Nat)) : UserData :=
  { awaitCustomRange := false, sel := emptySel, videoDuration := dur, qualities := qs }

/-- One entry of the `"formats"` list of the yt-dlp metadata dictionary;
`none` models an absent key. -/
structure YFormat where
  vcodec : Option String
  format_id : Option String
  height : Option Nat
  ext : Option String
  format_note : Option String
deriving DecidableEq, Repr

/-- The metadata dictionary as far as `list_qualities_sync` reads it. -/
structure VideoInfo where
  formats : List YFormat
deriving DecidableEq, Repr

/-- `f.get("height") or 0`. -/
def heightVal (f : YFormat) : Nat := f.height.getD 0

/-- `f.get("ext") or "unknown"` (an empty string is falsy too). -/
def extVal (f : YFormat) : String :=
  match f.ext with
  | some s => if s.isEmpty then "unknown" else s
  | none => "unknown"

/-- `f.get("vcodec", "unknown")`. -/
def vcodecVal (f : YFormat) : String := f.vcodec.getD "unknown"

/-- `f.get("format_note", "video")`. -/
def noteVal (f : YFormat) : String := f.format_note.getD "video"

/-- Prefix test on character lists. -/
def strHasPrefixL : List Char → List Char → Bool
  | [], _ => true
  | _ :: _, [] => false
  | a :: as, b :: bs => a == b && strHasPrefixL as bs

/-- Substring test on character lists, Python's `needle in hay`. -/
def strHasSubL (needle : List Char) : List Char → Bool
  | [] => needle.isEmpty
  | c :: t => strHasPrefixL needle (c :: t) || strHasSubL needle t

/-- Python `needle in hay` on strings. -/
def strContainsSub (needle hay : String) : Bool :=
  strHasSubL needle.data hay.data

/-- The label built by `list_qualities_sync`:
`f"{height}p"` (or the format note when the height is falsy) plus a
codec/extension suffix. -/
def fmtLabel (f : YFormat) : String :=
  let base := if heightVal f ≠ 0 then toString (heightVal f) ++ "p" else noteVal f
  if strContainsSub "avc" (vcodecVal f) then base ++ " (mp4)"
  else if strContainsSub "vp9" (vcodecVal f) then base ++ " (webm)"
  else base ++ " (" ++ extVal f ++ ")"

/-- Truthiness of `fmt_id` (`f.get("format_id")`). -/
def fmtIdTruthy (f : YFormat) : Bool :=
  match f.format_id with
  | some s => !s.isEmpty
  | none => false

/-- The candidate-collection loop of `list_qualities_sync`.  A candidate
carries `(format_id, label, height, ext)`; the `ext` component is the second
half of the de-duplication key `(height, ext)` (the source also builds the
final triples by projecting the first three components).  `seen` is the set
of keys already taken. -/
def qcGo : List YFormat → List (String × String × Nat × String) →
    List (Nat × String) → List (String × String × Nat × String)
  | [], cands, _ => cands
  | f :: fs, cands, seen =>
    if f.vcodec = some "none" then qcGo fs cands seen
    else
      let key := (heightVal f, extVal f)
      if key ∉ seen ∧ fmtIdTruthy f then
        qcGo fs (cands ++ [(f.format_id.getD "", fmtLabel f, heightVal f, extVal f)])
          (key :: seen)
      else qcGo fs cands seen

/-- The candidates accumulated by `list_qualities_sync` before sorting. -/
def qualityCandidates (info : VideoInfo) : List (String × String × Nat × String) :=
  qcGo info.formats [] []

/-- Height of a candidate, the sort key `x[2]`. -/
def candHeight (c : String × String × Nat × String) : Nat := c.2.2.1

/-- De-duplication key `(height, ext)` of a candidate. -/
def candKey (c : String × String × Nat × String) : Nat × String := (c.2.2.1, c.2.2.2)

/-- The selection invariant: a set custom range excludes a fixed duration
and forces the clip count to 1. -/
def SelInv (d : UserData) : Prop :=
  d.sel.custom_range.isSome = true → d.sel.duration = none ∧ d.sel.count = some 1

/-- The candidates sorted by height descending (`candidates.sort(key=...,
reverse=True)`; merge sort is stable, matching Python's stable sort). -/
def sortedCandidates (info : VideoInfo) : List (String × String × Nat × String) :=
  (qualityCandidates info).mergeSort (fun a b => candHeight b ≤ candHeight a)

/-- `list_qualities_sync` from `clipper_bot.py`: collect, sort by height
descending, fall back to `("best", "best", 0)` when nothing qualified,
project to `(format_id, label, height)`. -/
def list_qualities_sync (info : VideoInfo) : List (String × String × Nat) :=
  let cs := sortedCandidates info
  if cs.isEmpty then [("best", "best", 0)]
  else cs.map (fun c => (c.1, c.2.1, c.2.2.1))

/-! ## Helper lemmas -/

/-- Flattening the two-element chunking recovers the original list. -/
theorem chunkPairs_flatten {α : Type} : ∀ l : List α, (chunkPairs l).flatten = l
  | [] => by simp [chunkPairs]
  | [a] => by simp [chunkPairs]
  | a :: b :: r => by simp [chunkPairs, chunkPairs_flatten r]

/-- The quality rows contain only format buttons. -/
theorem startClip_not_mem_fmtRow (qs : List (String × String × Nat)) (n : Nat) :
    Button.startClip ∉ (qs.map (fun q => Button.fmtBtn q.1 q.2.1)).take n := by
  intro h
  have h2 := List.mem_of_mem_take h
  simp [List.mem_map] at h2

/-- Every selection event preserves the selection invariant. -/
theorem step_preserves_selInv (cfg : Config) (d : UserData) (e : Ev)
    (h : SelInv d) : SelInv (step cfg d e) := by
  cases e with
  | pressDur n =>
    intro hr
    simp [step, generate_menu_message] at hr
  | pressCustom => exact h
  | pressCount n =>
    intro hr
    by_cases hc : d.sel.custom_range.isSome = true
    · simp [step, generate_menu_message, hc] at hr ⊢
      exact (h hc).1
    · simp [step, generate_menu_message, hc] at hr
  | pressFmt id label =>
    intro hr
    by_cases hc : d.sel.custom_range.isSome = true
    · simp [step, generate_menu_message, hc] at hr ⊢
      exact (h hc).1
    · simp [step, generate_menu_message, hc] at hr
  | rangeText s =>
    intro hr
    simp only [step, text_handler] at hr ⊢
    by_cases ha : d.awaitCustomRange = true
    · simp only [ha, if_true] at hr ⊢
      cases hp : parse_range s with
      | none => simp [hp] at hr ⊢; exact h (by simpa [hp] using hr)
      | some r =>
        obtain ⟨a, b⟩ := r
        by_cases hlen : b - a = 0 ∨ b - a > cfg.maxClipSeconds
        · simp [hp, hlen] at hr ⊢; exact h (by simpa [hp, hlen] using hr)
        · simp [hp, hlen, generate_menu_message] at hr ⊢
    · simp [ha] at hr ⊢; exact h (by simpa [ha] using hr)
  | newLink dur qs =>
    intro hr
    simp [step, initUserData, emptySel] at hr

/-- The selection invariant holds along any event fold from an invariant
state. -/
theorem foldl_selInv (cfg : Config) (evs : List Ev) (d0 : UserData)
    (h0 : SelInv d0) : SelInv (evs.foldl (step cfg) d0) := by
  induction evs generalizing d0 with
  | nil => exact h0
  | cons e evs ih =>
    rw [List.foldl_cons]
    exact ih _ (step_preserves_selInv cfg d0 e h0)

/-! ## Claim theorems -/

/-- C1: `parse_range` parses `"2:32-3:23"` to `(152, 203)` and
`"00H08M10S-00H09M20S"` to `(490, 560)`. -/
theorem C1_parse_range_examples :
    parse_range "2:32-3:23" = some (152, 203) ∧
    parse_range "00H08M10S-00H09M20S" = some (490, 560) := by decide

/-- C2: whenever `parse_range` returns a pair `(a, b)`, then `b > a`; in
particular ranges with `end ≤ start` and texts from which two time tokens
cannot be extracted yield no result. -/
theorem C2_parse_range_ordered (s : String) (a b : Nat)
    (h : parse_range s = some (a, b)) : a < b := by
  unfold parse_range parseRangeChars at h
  dsimp only at h
  split at h
  next r heq =>
    injection h with h2
    subst h2
    repeat' split at heq
    all_goals first
      | (injection heq with h2; injection h2 with h3 h4; subst h3; subst h4; assumption)
      | simp_all
  next =>
    repeat' split at h
    all_goals first
      | (injection h with h2; injection h2 with h3 h4; subst h3; subst h4; assumption)
      | simp_all

/-- Witness for C2 at the concrete input `"5-10"`. -/
theorem C2_parse_range_ordered_witness :
    parse_range "5-10" = some (5, 10) ∧ 5 < 10 :=
  ⟨by decide, C2_parse_range_ordered "5-10" 5 10 (by decide)⟩

/-- C3: for positive `D, L, N` with `L < D` every planned segment satisfies
`0 ≤ start` and `start + L ≤ D`; `D=600, L=30, N=3` plans starts
`[135, 285, 435]`; `D=20, L=30` plans the single segment `(0, 20)`. -/
theorem C3_plan_segments_spec :
    (∀ D L N : Nat, 0 < D → 0 < L → 0 < N → L < D →
      ∀ seg ∈ plan_segments D L N, 0 ≤ seg.1 ∧ seg.1 + (L : Int) ≤ (D : Int)) ∧
    (plan_segments 600 30 3).map Prod.fst = [135, 285, 435] ∧
    (∀ N : Nat, 0 < N → plan_segments 20 30 N = [(0, 20)]) := by
  refine ⟨?_, by decide, ?_⟩
  · intro D L N _ _ _ hLD seg hseg
    unfold plan_segments at hseg
    rw [if_neg (by omega)] at hseg
    obtain ⟨i0, _, rfl⟩ := List.mem_map.1 hseg
    dsimp only
    constructor
    · exact le_max_left _ _
    · have h1 : max 0 (min ((D : Int) * ((i0 : Int) + 1) / ((N : Int) + 1) - (L : Int) / 2)
          ((D : Int) - (L : Int))) ≤ (D : Int) - (L : Int) := by
        apply max_le
        · omega
        · exact min_le_right _ _
      omega
  · intro N _
    norm_num [plan_segments]

/-- Witness for C3 at `D=600, L=30, N=3` and the segment `(135, 165)`. -/
theorem C3_plan_segments_witness :
    (0 : Int) ≤ 135 ∧ (135 : Int) + 30 ≤ 600 := by
  have h := C3_plan_segments_spec.1 600 30 3 (by norm_num) (by norm_num)
    (by norm_num) (by norm_num) (135, 165) (by decide)
  exact h

/-- C4: in every reachable selection state a set custom range excludes a
fixed duration and forces the clip count to 1; moreover `set:dur:<n>`
always clears the range, and a successful (length-admissible) range parse
clears the fixed duration. -/
theorem C4_selection_exclusive (cfg : Config) (dur : Nat)
    (qs : List (String × String × Nat)) (evs : List Ev) :
    ((evs.foldl (step cfg) (initUserData dur qs)).sel.custom_range.isSome = true →
      (evs.foldl (step cfg) (initUserData dur qs)).sel.duration = none ∧
      (evs.foldl (step cfg) (initUserData dur qs)).sel.count = some 1) ∧
    (∀ d : UserData, ∀ n : Nat, (step cfg d (Ev.pressDur n)).sel.custom_range = none) ∧
    (∀ d : UserData, ∀ s : String, ∀ a b : Nat, d.awaitCustomRange = true →
      parse_range s = some (a, b) → b - a ≠ 0 → b - a ≤ cfg.maxClipSeconds →
      (step cfg d (Ev.rangeText s)).sel.duration = none) := by
  refine ⟨?_, ?_, ?_⟩
  · exact foldl_selInv cfg evs _ (by intro hr; simp [initUserData, emptySel] at hr)
  · intro d n
    simp [step, generate_menu_message]
  · intro d s a b ha hp h0 hlen
    simp [step, text_handler, ha, hp, h0, Nat.not_lt.2 hlen, generate_menu_message]

/-- Witness for C4: after requesting a custom range and sending `"1-20"`,
the stored range is set, so the fixed duration is cleared and the count is
forced to 1. -/
theorem C4_selection_exclusive_witness :
    ([Ev.pressCustom, Ev.rangeText "1-20"].foldl (step ⟨180, 5⟩)
        (initUserData 600 [])).sel.duration = none ∧
    ([Ev.pressCustom, Ev.rangeText "1-20"].foldl (step ⟨180, 5⟩)
        (initUserData 600 [])).sel.count = some 1 :=
  (C4_selection_exclusive ⟨180, 5⟩ 600 [] [Ev.pressCustom, Ev.rangeText "1-20"]).1
    (by decide)

/-- C5: the rendered menu offers the START control exactly when a duration
or custom range is set, a count is set, and a quality is set (all read on
the state as the renderer leaves it). -/
theorem C5_start_offered_iff (cfg : Config) (d : UserData) :
    Button.startClip ∈ ((generate_menu_message cfg d).2).flatten ↔
      ((natTruthy (generate_menu_message cfg d).1.duration = true ∨
        (generate_menu_message cfg d).1.custom_range.isSome = true) ∧
       natTruthy (generate_menu_message cfg d).1.count = true ∧
       strTruthy (generate_menu_message cfg d).1.format = true) := by
  unfold generate_menu_message
  dsimp only
  by_cases hr : d.sel.custom_range.isSome <;>
    by_cases hf : strTruthy d.sel.format <;>
      by_cases hd : natTruthy d.sel.duration <;>
        by_cases hc : natTruthy d.sel.count <;>
          simp [hr, hf, hd, hc, natTruthy, List.flatten_append, List.mem_append,
            chunkPairs_flatten, List.mem_map, startClip_not_mem_fmtRow]

/-- C6: an awaited range text that parses but exceeds the configured
maximum clip length is answered with an inline error; `user_data` (hence
the whole selection state and the awaiting flag) is untouched. -/
theorem C6_overlong_range_rejected (cfg : Config) (d : UserData) (t : String)
    (a b : Nat) (hA : d.awaitCustomRange = true)
    (hp : parse_range t = some (a, b)) (hl : b - a > cfg.maxClipSeconds) :
    text_handler cfg d t = (d, Reply.rangeTooLong cfg.maxClipSeconds) ∧
    (text_handler cfg d t).1 = d ∧
    (text_handler cfg d t).1.awaitCustomRange = true := by
  have h : text_handler cfg d t = (d, Reply.rangeTooLong cfg.maxClipSeconds) := by
    unfold text_handler
    simp [hA, hp, Or.inr hl]
  exact ⟨h, by rw [h], by rw [h]; exact hA⟩

/-- Witness for C6 at the concrete awaited text `"0-9999"` under the
default 180-second cap. -/
theorem C6_overlong_range_rejected_witness :
    text_handler ⟨180, 5⟩ ⟨true, emptySel, 600, []⟩ "0-9999" =
      (⟨true, emptySel, 600, []⟩, Reply.rangeTooLong 180) :=
  (C6_overlong_range_rejected ⟨180, 5⟩ ⟨true, emptySel, 600, []⟩ "0-9999" 0 9999
    rfl (by decide) (by decide)).1

/-- Keys of the accumulated candidates stay pairwise distinct: every
accumulated key is recorded in `seen` and new keys must avoid `seen`. -/
theorem qcGo_key_nodup : ∀ (fs : List YFormat)
    (cands : List (String × String × Nat × String)) (seen : List (Nat × String)),
    (cands.map candKey).Nodup → (∀ k ∈ cands.map candKey, k ∈ seen) →
    ((qcGo fs cands seen).map candKey).Nodup := by
  intro fs
  induction fs with
  | nil => intro cands seen h _; simpa [qcGo] using h
  | cons f fs ih =>
    intro cands seen h hsub
    unfold qcGo
    split
    · exact ih _ _ h hsub
    · dsimp only
      split
      next hcond =>
        apply ih
        · rw [List.map_append]
          simp only [List.map_cons, List.map_nil, candKey]
          rw [List.nodup_append]
          refine ⟨h, List.nodup_singleton _, ?_⟩
          intro k hk hk2
          simp only [List.mem_singleton] at hk2
          subst hk2
          exact hcond.1 (hsub _ hk)
        · intro k hk
          rw [List.map_append] at hk
          rcases List.mem_append.1 hk with hk | hk
          · exact List.mem_cons_of_mem _ (hsub _ hk)
          · simp only [List.map_cons, List.map_nil, List.mem_singleton, candKey] at hk
            subst hk
            exact List.mem_cons_self _ _
      next => exact ih _ _ h hsub

/-- Dropping the formats whose `vcodec` is the string `"none"` in advance
does not change the collected candidates: the loop skips exactly those. -/
theorem qcGo_filter_none : ∀ (fs : List YFormat)
    (cands : List (String × String × Nat × String)) (seen : List (Nat × String)),
    qcGo (fs.filter (fun f => f.vcodec ≠ some "none")) cands seen = qcGo fs cands seen := by
  intro fs
  induction fs with
  | nil => intro cands seen; rfl
  | cons f fs ih =>
    intro cands seen
    by_cases hv : f.vcodec = some "none"
    · rw [List.filter_cons_of_neg (by simp [hv])]
      rw [ih]
      conv_rhs => rw [qcGo]
      rw [if_pos hv]
    · rw [List.filter_cons_of_pos (by simp [hv])]
      conv_lhs => rw [qcGo]
      conv_rhs => rw [qcGo]
      rw [if_neg hv, if_neg hv]
      dsimp only
      split
      · exact ih _ _
      · exact ih _ _

/-- C8: the quality list is ordered by height descending, no two collected
candidates share a `(height, ext)` key, and formats with `vcodec == "none"`
are excluded (pre-filtering them changes nothing). -/
theorem C8_qualities_sorted_dedup (info : VideoInfo) :
    ((list_qualities_sync info).map (fun e => e.2.2)).Sorted (· ≥ ·) ∧
    ((sortedCandidates info).map candKey).Nodup ∧
    qualityCandidates ⟨info.formats.filter (fun f => f.vcodec ≠ some "none")⟩ =
      qualityCandidates info := by
  refine ⟨?_, ?_, ?_⟩
  · unfold list_qualities_sync
    dsimp only
    split
    · simp
    · have hps := @List.sorted_mergeSort _
        (fun a b => decide (candHeight b ≤ candHeight a))
        (fun a b c h1 h2 => by simp only [decide_eq_true_eq] at *; omega)
        (fun a b => by simp only [Bool.or_eq_true, decide_eq_true_eq]; omega)
        (qualityCandidates info)
      rw [List.map_map]
      unfold sortedCandidates
      rw [List.Sorted, List.pairwise_map]
      exact hps.imp (fun h => by simpa [candHeight] using h)
  · exact (List.Perm.nodup_iff (List.Perm.map candKey (List.mergeSort_perm _ _))).2
      (qcGo_key_nodup info.formats [] [] (by simp) (by simp))
  · exact qcGo_filter_none _ _ _

/-- C9: the quality list is never empty; when no format qualifies it is the
single fallback entry `("best", "best", 0)`. -/
theorem C9_qualities_nonempty (info : VideoInfo) :
    list_qualities_sync info ≠ [] ∧
    (qualityCandidates info = [] → list_qualities_sync info = [("best", "best", 0)]) := by
  constructor
  · unfold list_qualities_sync
    dsimp only
    split
    · simp
    · next hne =>
      simp only [ne_eq, List.map_eq_nil_iff]
      simpa [List.isEmpty_iff] using hne
  · intro h
    unfold list_qualities_sync sortedCandidates
    rw [h]
    simp

/-- Witness for C9 on the empty metadata: no candidate qualifies and the
fallback entry is returned. -/
theorem C9_qualities_nonempty_witness :
    list_qualities_sync ⟨[]⟩ = [("best", "best", 0)] :=
  (C9_qualities_nonempty ⟨[]⟩).2 rfl

/-! ### Decimal rendering and parsing inverse lemmas (for C10) -/

/-- Digit characters are digits. -/
theorem digCh_isDigit (d : Nat) (h : d < 10) : (digCh d).isDigit = true := by
  interval_cases d <;> decide

/-- Value of a digit character. -/
theorem digCh_toNat (d : Nat) (h : d < 10) : (digCh d).toNat - 48 = d := by
  interval_cases d <;> decide

/-- Rendered numbers consist of digit characters. -/
theorem natChars_digits (n : Nat) : ∀ c ∈ natChars n, c.isDigit = true := by
  intro c hc
  obtain ⟨d, hd, rfl⟩ := List.mem_map.1 hc
  exact digCh_isDigit d (Nat.digits_lt_base (by norm_num) (List.mem_reverse.1 hd))

/-- Zero-padding preserves digit-only content. -/
theorem pad2_digits (l : List Char) (h : ∀ c ∈ l, c.isDigit = true) :
    ∀ c ∈ pad2 l, c.isDigit = true := by
  intro c hc
  unfold pad2 at hc
  split at hc
  · rcases List.mem_append.1 hc with hc | hc
    · rw [List.eq_of_mem_replicate hc]; decide
    · exact h c hc
  · exact h c hc

/-- A zero-padded field is never empty. -/
theorem pad2_ne_nil (l : List Char) : pad2 l ≠ [] := by
  intro he
  have hlen := congrArg List.length he
  unfold pad2 at hlen
  split at hlen
  · next h => simp at hlen; omega
  · next h => simp at hlen; subst hlen; simp at h

/-- Leading zero characters do not change the parsed value. -/
theorem toNum_replicate_zero (k : Nat) (l : List Char) :
    toNum (List.replicate k '0' ++ l) = toNum l := by
  induction k with
  | zero => rfl
  | succ k ih =>
    rw [List.replicate_succ, List.cons_append]
    unfold toNum at *
    simpa using ih

/-- Folding the decimal step over a big-endian digit rendering computes
`acc·10^len + value`. -/
theorem foldl_digits_acc (ds : List Nat) (acc : Nat) (h : ∀ d ∈ ds, d < 10) :
    ((ds.reverse).map digCh).foldl (fun a c => a * 10 + (c.toNat - 48)) acc
      = acc * 10 ^ ds.length + Nat.ofDigits 10 ds := by
  induction ds generalizing acc with
  | nil => simp
  | cons d ds ih =>
    rw [List.reverse_cons, List.map_append, List.foldl_append]
    rw [ih acc (fun x hx => h x (List.mem_cons_of_mem _ hx))]
    simp only [List.map_cons, List.map_nil, List.foldl_cons, List.foldl_nil]
    rw [digCh_toNat d (h d (List.mem_cons_self _ _))]
    rw [Nat.ofDigits_cons, List.length_cons, pow_succ]
    ring

/-- Parsing the decimal rendering recovers the number. -/
theorem toNum_natChars (n : Nat) : toNum (natChars n) = n := by
  unfold toNum natChars
  rw [foldl_digits_acc _ 0 (fun d hd => Nat.digits_lt_base (by norm_num) hd)]
  simp [Nat.ofDigits_digits]

/-- Zero-padding does not change the parsed value. -/
theorem toNum_pad2 (l : List Char) : toNum (pad2 l) = toNum l := by
  unfold pad2
  split
  · exact toNum_replicate_zero _ _
  · rfl

/-- Digit characters are not whitespace. -/
theorem isDigit_not_ws (c : Char) (h : c.isDigit = true) : isWsChar c = false := by
  unfold isWsChar
  simp only [Bool.or_eq_false_iff, beq_eq_false_iff_ne]
  refine ⟨⟨⟨⟨⟨?_, ?_⟩, ?_⟩, ?_⟩, ?_⟩, ?_⟩ <;> rintro rfl <;> exact absurd h (by decide)

/-- Digit characters are not colons. -/
theorem isDigit_ne_colon (c : Char) (h : c.isDigit = true) : c ≠ ':' := by
  rintro rfl; exact absurd h (by decide)

/-- `dropWhile` is the identity when no element satisfies the predicate. -/
theorem dropWhile_eq_self_of (p : Char → Bool) (l : List Char)
    (h : ∀ c ∈ l, p c = false) : l.dropWhile p = l := by
  cases l with
  | nil => rfl
  | cons c r => rw [List.dropWhile_cons_of_neg (by simp [h c (List.mem_cons_self _ _)])]

/-- Stripping a whitespace-free string is the identity. -/
theorem pyStrip_eq_self (l : List Char) (h : ∀ c ∈ l, isWsChar c = false) :
    pyStrip l = l := by
  unfold pyStrip
  rw [dropWhile_eq_self_of _ _ h]
  rw [dropWhile_eq_self_of _ _ (fun c hc => h c (List.mem_reverse.1 hc))]
  exact List.reverse_reverse l

/-- A colon-free string splits into itself. -/
theorem splitOnColon_no_colon (l : List Char) (h : ∀ c ∈ l, c ≠ ':') :
    splitOnColon l = [l] := by
  induction l with
  | nil => rfl
  | cons c r ih =>
    unfold splitOnColon
    rw [if_neg (h c (List.mem_cons_self _ _))]
    rw [ih (fun x hx => h x (List.mem_cons_of_mem _ hx))]

/-- Splitting at the first colon after a colon-free prefix. -/
theorem splitOnColon_append (A R : List Char) (hA : ∀ c ∈ A, c ≠ ':') :
    splitOnColon (A ++ ':' :: R) = A :: splitOnColon R := by
  induction A with
  | nil => simp [splitOnColon]
  | cons c A ih =>
    rw [List.cons_append]
    conv_lhs => rw [splitOnColon]
    rw [if_neg (hA c (List.mem_cons_self _ _))]
    rw [ih (fun x hx => hA x (List.mem_cons_of_mem _ hx))]

/-- No `H`/`M`/`S` group can match a digit prefix followed by a colon. -/
theorem hmsStep_colon (p : Char → Bool) (hp : p ':' = false) (A R : List Char)
    (hA : ∀ c ∈ A, c.isDigit = true) : hmsStep p (A ++ ':' :: R) = none := by
  unfold hmsStep
  rw [List.dropWhile_append_of_pos hA, List.dropWhile_cons_of_neg (by simp)]
  simp [hp]

/-- An optional group leaves a digit-prefix-colon input untouched. -/
theorem hmsGroup_colon (p : Char → Bool) (hp : p ':' = false) (A R : List Char)
    (hA : ∀ c ∈ A, c.isDigit = true) :
    hmsGroup p (A ++ ':' :: R) = (none, A ++ ':' :: R) := by
  unfold hmsGroup
  rw [hmsStep_colon p hp A R hA]

/-- The `H`/`M`/`S` regex rejects a digit prefix followed by a colon. -/
theorem hmsMatch_digits_colon (A R : List Char) (hA : ∀ c ∈ A, c.isDigit = true) :
    hmsMatch (A ++ ':' :: R) = none := by
  unfold hmsMatch
  rw [hmsGroup_colon isHch (by decide) A R hA]
  dsimp only
  rw [hmsGroup_colon isMch (by decide) A R hA]
  dsimp only
  rw [hmsGroup_colon isSch (by decide) A R hA]
  simp

/-- C10: formatting any number of seconds with `sec_to_hms` and parsing it
back with `parse_time_to_seconds` round-trips exactly. -/
theorem C10_sec_to_hms_roundtrip (s : Nat) :
    parse_time_to_seconds (sec_to_hms s).data = some s := by
  have hAd : ∀ c ∈ pad2 (natChars (s / 3600)), c.isDigit = true :=
    pad2_digits _ (natChars_digits _)
  have hBd : ∀ c ∈ pad2 (natChars (s % 3600 / 60)), c.isDigit = true :=
    pad2_digits _ (natChars_digits _)
  have hCd : ∀ c ∈ pad2 (natChars (s % 60)), c.isDigit = true :=
    pad2_digits _ (natChars_digits _)
  set A := pad2 (natChars (s / 3600)) with hA
  set B := pad2 (natChars (s % 3600 / 60)) with hB
  set C := pad2 (natChars (s % 60)) with hC
  have hdata : (sec_to_hms s).data = A ++ ':' :: (B ++ ':' :: C) := by
    rw [show (sec_to_hms s).data = (A ++ ':' :: B) ++ ':' :: C from rfl,
      List.append_assoc, List.cons_append]
  have hws : ∀ c ∈ A ++ ':' :: (B ++ ':' :: C), isWsChar c = false := by
    intro c hc
    rcases List.mem_append.1 hc with hc | hc
    · exact isDigit_not_ws c (hAd c hc)
    · rcases List.mem_cons.1 hc with rfl | hc
      · decide
      · rcases List.mem_append.1 hc with hc | hc
        · exact isDigit_not_ws c (hBd c hc)
        · rcases List.mem_cons.1 hc with rfl | hc
          · decide
          · exact isDigit_not_ws c (hCd c hc)
  unfold parse_time_to_seconds
  rw [hdata, pyStrip_eq_self _ hws]
  dsimp only
  rw [hmsMatch_digits_colon A (B ++ ':' :: C) hAd]
  dsimp only
  have hcont : (A ++ ':' :: (B ++ ':' :: C)).contains ':' = true := by simp
  rw [hcont, if_pos rfl]
  have hsplit : splitOnColon (A ++ ':' :: (B ++ ':' :: C)) = [A, B, C] := by
    rw [splitOnColon_append A _ (fun c hc => isDigit_ne_colon c (hAd c hc))]
    rw [splitOnColon_append B _ (fun c hc => isDigit_ne_colon c (hBd c hc))]
    rw [splitOnColon_no_colon C (fun c hc => isDigit_ne_colon c (hCd c hc))]
  rw [hsplit]
  have hf : ∀ (X : List Char), X ≠ [] → (∀ c ∈ X, c.isDigit = true) →
      stripIsDigit X = true := by
    intro X hne hX
    unfold stripIsDigit
    rw [pyStrip_eq_self _ (fun c hc => isDigit_not_ws c (hX c hc))]
    rw [Bool.and_eq_true]
    exact ⟨by simpa [List.isEmpty_iff] using hne, List.all_eq_true.2 hX⟩
  have hfilter : ([A, B, C]).filter stripIsDigit = [A, B, C] := by
    rw [List.filter_cons_of_pos (hf A (hA ▸ pad2_ne_nil _) hAd),
      List.filter_cons_of_pos (hf B (hB ▸ pad2_ne_nil _) hBd),
      List.filter_cons_of_pos (hf C (hC ▸ pad2_ne_nil _) hCd), List.filter_nil]
  rw [hfilter]
  dsimp only
  rw [pyStrip_eq_self _ (fun c hc => isDigit_not_ws c (hAd c hc)),
    pyStrip_eq_self _ (fun c hc => isDigit_not_ws c (hBd c hc)),
    pyStrip_eq_self _ (fun c hc => isDigit_not_ws c (hCd c hc))]
  rw [hA, hB, hC, toNum_pad2, toNum_pad2, toNum_pad2,
    toNum_natChars, toNum_natChars, toNum_natChars]
  congr 1
  omega

/-! ### Character-class lemmas (for C7) -/

theorem isHch_cases (c : Char) (h : isHch c = true) : c = 'H' ∨ c = 'h' := by
  unfold isHch at h
  rw [Bool.or_eq_true] at h
  rcases h with h | h
  · exact Or.inl (eq_of_beq h)
  · exact Or.inr (eq_of_beq h)

theorem isMch_cases (c : Char) (h : isMch c = true) : c = 'M' ∨ c = 'm' := by
  unfold isMch at h
  rw [Bool.or_eq_true] at h
  rcases h with h | h
  · exact Or.inl (eq_of_beq h)
  · exact Or.inr (eq_of_beq h)

theorem isSch_cases (c : Char) (h : isSch c = true) : c = 'S' ∨ c = 's' := by
  unfold isSch at h
  rw [Bool.or_eq_true] at h
  rcases h with h | h
  · exact Or.inl (eq_of_beq h)
  · exact Or.inr (eq_of_beq h)

theorem isWsChar_mem (c : Char) (h : isWsChar c = true) :
    c = ' ' ∨ c = '\t' ∨ c = '\n' ∨ c = '\r' ∨ c = '\x0b' ∨ c = '\x0c' := by
  by_contra hmem
  push_neg at hmem
  obtain ⟨h1, h2, h3, h4, h5, h6⟩ := hmem
  unfold isWsChar at h
  simp [beq_iff_eq, h1, h2, h3, h4, h5, h6] at h

theorem isDelimChar_mem (c : Char) (h : isDelimChar c = true) :
    c = '-' ∨ c = '–' ∨ c = 't' ∨ c = 'T' ∨ c = 'o' ∨ c = 'O' ∨ c = ':' ∨
    c = 'a' ∨ c = 'A' ∨ c = 'w' ∨ c = 'W' ∨ c = 's' ∨ c = 'S' := by
  by_contra hmem
  push_neg at hmem
  obtain ⟨h1, h2, h3, h4, h5, h6, h7, h8, h9, h10, h11, h12, h13⟩ := hmem
  unfold isDelimChar at h
  simp [beq_iff_eq, h1, h2, h3, h4, h5, h6, h7, h8, h9, h10, h11, h12, h13] at h

theorem isHch_not_digit (c : Char) (h : isHch c = true) : c.isDigit = false := by
  rcases isHch_cases c h with rfl | rfl <;> decide

theorem isMch_not_digit (c : Char) (h : isMch c = true) : c.isDigit = false := by
  rcases isMch_cases c h with rfl | rfl <;> decide

theorem isSch_not_digit (c : Char) (h : isSch c = true) : c.isDigit = false := by
  rcases isSch_cases c h with rfl | rfl <;> decide

theorem isSch_not_isHch (c : Char) (h : isSch c = true) : isHch c = false := by
  rcases isSch_cases c h with rfl | rfl <;> decide

theorem isSch_not_isMch (c : Char) (h : isSch c = true) : isMch c = false := by
  rcases isSch_cases c h with rfl | rfl <;> decide

theorem ws_not_time (c : Char) (h : isWsChar c = true) : isTimeChar c = false := by
  rcases isWsChar_mem c h with rfl | rfl | rfl | rfl | rfl | rfl <;> decide

theorem ws_not_delim (c : Char) (h : isWsChar c = true) : isDelimChar c = false := by
  rcases isWsChar_mem c h with rfl | rfl | rfl | rfl | rfl | rfl <;> decide

theorem delim_time_cases (c : Char) (hd : isDelimChar c = true)
    (ht : isTimeChar c = true) : isSch c = true ∨ c = ':' := by
  rcases isDelimChar_mem c hd with
      rfl | rfl | rfl | rfl | rfl | rfl | rfl | rfl | rfl | rfl | rfl | rfl | rfl <;>
    first
      | exact Or.inl (by decide)
      | exact Or.inr rfl
      | exact absurd ht (by decide)

theorem digit_is_time (c : Char) (h : c.isDigit = true) : isTimeChar c = true := by
  unfold isTimeChar
  simp [h]

theorem digit_not_delim (c : Char) (h : c.isDigit = true) : isDelimChar c = false := by
  by_contra hd
  rw [Bool.not_eq_false] at hd
  rcases isDelimChar_mem c hd with
      rfl | rfl | rfl | rfl | rfl | rfl | rfl | rfl | rfl | rfl | rfl | rfl | rfl <;>
    exact absurd h (by decide)

theorem isHch_facts (c : Char) (h : isHch c = true) :
    isTimeChar c = true ∧ isDelimChar c = false ∧ isWsChar c = false := by
  rcases isHch_cases c h with rfl | rfl <;> exact ⟨by decide, by decide, by decide⟩

theorem isMch_facts (c : Char) (h : isMch c = true) :
    isTimeChar c = true ∧ isDelimChar c = false ∧ isWsChar c = false := by
  rcases isMch_cases c h with rfl | rfl <;> exact ⟨by decide, by decide, by decide⟩

theorem isSch_facts (c : Char) (h : isSch c = true) :
    isTimeChar c = true ∧ isWsChar c = false := by
  rcases isSch_cases c h with rfl | rfl <;> exact ⟨by decide, by decide⟩

/-! ### Regex-group inversion and extension lemmas (for C7) -/

theorem hmsStep_some_inv (p : Char → Bool) (l r : List Char) (v : Nat)
    (h : hmsStep p l = some (v, r)) :
    ∃ d x, l = d ++ x :: r ∧ d ≠ [] ∧ (∀ c ∈ d, c.isDigit = true) ∧
      p x = true ∧ v = toNum d := by
  unfold hmsStep at h
  split at h
  next x r2 heq =>
    dsimp only at h
    split at h
    next hcond =>
      injection h with h2
      injection h2 with hv hr
      subst hv; subst hr
      refine ⟨l.takeWhile Char.isDigit, x, ?_, hcond.1, ?_, hcond.2, rfl⟩
      · rw [← heq, List.takeWhile_append_dropWhile]
      · intro c hc
        exact List.all_eq_true.1 (List.all_takeWhile (l := l) (p := Char.isDigit)) c hc
    next => exact absurd h (by simp)
  next => exact absurd h (by simp)

theorem hmsStep_nondigit_head (p : Char → Bool) (c0 : Char) (Y : List Char)
    (h : c0.isDigit = false) : hmsStep p (c0 :: Y) = none := by
  unfold hmsStep
  rw [List.takeWhile_cons_of_neg (by simp [h]), List.dropWhile_cons_of_neg (by simp [h])]
  simp

theorem hmsStep_nil (p : Char → Bool) : hmsStep p [] = none := rfl

theorem hmsStep_extend (p : Char → Bool) (X : List Char) (c0 : Char) (Y : List Char)
    (hdig : c0.isDigit = false) (hp : p c0 = false) :
    hmsStep p (X ++ c0 :: Y) =
      match hmsStep p X with
      | some (v, r) => some (v, r ++ c0 :: Y)
      | none => none := by
  unfold hmsStep
  rcases hdw : X.dropWhile Char.isDigit with _ | ⟨x, r⟩
  · -- X is all digits
    have hall : ∀ c ∈ X, c.isDigit = true := by
      intro c hc
      have := List.takeWhile_append_dropWhile (p := Char.isDigit) (l := X)
      rw [hdw, List.append_nil] at this
      have h2 := List.all_takeWhile (l := X) (p := Char.isDigit)
      rw [this] at h2
      exact List.all_eq_true.1 h2 c hc
    rw [List.takeWhile_append_of_pos hall, List.dropWhile_append_of_pos hall]
    rw [List.takeWhile_cons_of_neg (by simp [hdig]), List.dropWhile_cons_of_neg (by simp [hdig])]
    simp [hp]
  · -- X has a non-digit at x
    have hx : x.isDigit = false := by
      have := List.head?_dropWhile_not Char.isDigit X
      rw [hdw] at this
      simp at this
      simpa using this
    have htw : (X ++ c0 :: Y).takeWhile Char.isDigit = X.takeWhile Char.isDigit := by
      rw [List.takeWhile_append]
      split
      next hlen =>
        exfalso
        have := List.takeWhile_append_dropWhile (p := Char.isDigit) (l := X)
        have hlen2 : (X.takeWhile Char.isDigit).length + (X.dropWhile Char.isDigit).length = X.length := by
          rw [← List.length_append, this]
        rw [hdw] at hlen2
        simp at hlen2
        omega
      next => rfl
    have hdw2 : (X ++ c0 :: Y).dropWhile Char.isDigit = x :: (r ++ c0 :: Y) := by
      rw [List.dropWhile_append]
      rw [hdw]
      simp
    rw [htw, hdw2]
    dsimp only
    by_cases hc : (X.takeWhile Char.isDigit ≠ [] ∧ p x = true)
    · rw [if_pos hc, if_pos hc]
    · rw [if_neg hc, if_neg hc]

/-! ### Whole-regex lemmas (for C7) -/

theorem hmsGroup_inv (p : Char → Bool) (l : List Char) (oh : Option Nat)
    (l' : List Char) (h : hmsGroup p l = (oh, l')) :
    (oh = none ∧ l' = l) ∨
    ∃ d x, l = d ++ x :: l' ∧ d ≠ [] ∧ (∀ c ∈ d, c.isDigit = true) ∧
      p x = true ∧ oh = some (toNum d) := by
  unfold hmsGroup at h
  cases hs : hmsStep p l with
  | none => rw [hs] at h; injection h with h1 h2; exact Or.inl ⟨h1.symm, h2.symm⟩
  | some vr =>
    obtain ⟨v, r⟩ := vr
    rw [hs] at h
    injection h with h1 h2
    obtain ⟨d, x, hl, hd, hdig, hp, hv⟩ := hmsStep_some_inv p l r v hs
    subst h2
    exact Or.inr ⟨d, x, hl, hd, hdig, hp, by rw [← h1, hv]⟩

theorem hmsGroup_extend (p : Char → Bool) (X : List Char) (c0 : Char) (Y : List Char)
    (hdig : c0.isDigit = false) (hp : p c0 = false) :
    hmsGroup p (X ++ c0 :: Y) = ((hmsGroup p X).1, (hmsGroup p X).2 ++ c0 :: Y) := by
  unfold hmsGroup
  rw [hmsStep_extend p X c0 Y hdig hp]
  cases hmsStep p X with
  | none => rfl
  | some vr => obtain ⟨v, r⟩ := vr; rfl

theorem hmsGroup_all_digits (p : Char → Bool) (X : List Char)
    (hX : ∀ c ∈ X, c.isDigit = true) : hmsGroup p X = (none, X) := by
  unfold hmsGroup hmsStep
  rw [List.dropWhile_eq_nil_iff.2 hX]

theorem hmsGroup_digits_letter (p : Char → Bool) (X : List Char) (c0 : Char)
    (Y : List Char) (hX : ∀ c ∈ X, c.isDigit = true) (hne : X ≠ [])
    (hdig : c0.isDigit = false) (hp : p c0 = true) :
    hmsGroup p (X ++ c0 :: Y) = (some (toNum X), Y) := by
  unfold hmsGroup hmsStep
  rw [List.takeWhile_append_of_pos hX, List.dropWhile_append_of_pos hX,
    List.takeWhile_cons_of_neg (by simp [hdig]), List.dropWhile_cons_of_neg (by simp [hdig])]
  simp [hne, hp]

theorem hmsMatch_chars (l : List Char) (v : Nat) (h : hmsMatch l = some v) :
    ∀ c ∈ l, c.isDigit = true ∨ isHch c = true ∨ isMch c = true ∨ isSch c = true := by
  unfold hmsMatch at h
  rcases hg1 : hmsGroup isHch l with ⟨h1, l1⟩
  rw [hg1] at h
  dsimp only at h
  rcases hg2 : hmsGroup isMch l1 with ⟨h2, l2⟩
  rw [hg2] at h
  dsimp only at h
  rcases hg3 : hmsGroup isSch l2 with ⟨h3, l3⟩
  rw [hg3] at h
  dsimp only at h
  split at h
  next hcond =>
    obtain ⟨hl3, -⟩ := hcond
    subst hl3
    intro c hc
    have sub3 : ∀ c ∈ l2, c.isDigit = true ∨ isSch c = true := by
      intro c hc2
      rcases hmsGroup_inv _ _ _ _ hg3 with ⟨-, hl⟩ | ⟨d, x, hl, -, hdig, hp, -⟩
      · rw [← hl] at hc2; simp at hc2
      · rw [hl] at hc2
        rcases List.mem_append.1 hc2 with hm | hm
        · exact Or.inl (hdig c hm)
        · rcases List.mem_cons.1 hm with rfl | hm
          · exact Or.inr hp
          · simp at hm
    have sub2 : ∀ c ∈ l1, c.isDigit = true ∨ isMch c = true ∨ isSch c = true := by
      intro c hc2
      rcases hmsGroup_inv _ _ _ _ hg2 with ⟨-, hl⟩ | ⟨d, x, hl, -, hdig, hp, -⟩
      · rw [← hl] at hc2
        rcases sub3 c hc2 with h | h
        · exact Or.inl h
        · exact Or.inr (Or.inr h)
      · rw [hl] at hc2
        rcases List.mem_append.1 hc2 with hm | hm
        · exact Or.inl (hdig c hm)
        · rcases List.mem_cons.1 hm with rfl | hm
          · exact Or.inr (Or.inl hp)
          · rcases sub3 c hm with h | h
            · exact Or.inl h
            · exact Or.inr (Or.inr h)
    rcases hmsGroup_inv _ _ _ _ hg1 with ⟨-, hl⟩ | ⟨d, x, hl, -, hdig, hp, -⟩
    · rw [← hl] at hc
      rcases sub2 c hc with h | h | h
      · exact Or.inl h
      · exact Or.inr (Or.inr (Or.inl h))
      · exact Or.inr (Or.inr (Or.inr h))
    · rw [hl] at hc
      rcases List.mem_append.1 hc with hm | hm
      · exact Or.inl (hdig c hm)
      · rcases List.mem_cons.1 hm with rfl | hm
        · exact Or.inr (Or.inl hp)
        · rcases sub2 c hm with h | h | h
          · exact Or.inl h
          · exact Or.inr (Or.inr (Or.inl h))
          · exact Or.inr (Or.inr (Or.inr h))
  next => exact absurd h (by simp)

theorem hmsMatch_none_of_colon (l : List Char) (h : (':' : Char) ∈ l) :
    hmsMatch l = none := by
  cases hm : hmsMatch l with
  | none => rfl
  | some v =>
    rcases hmsMatch_chars l v hm ':' h with hc | hc | hc | hc <;>
      exact absurd hc (by decide)

theorem hmsMatch_all_digits (l : List Char) (hdig : ∀ c ∈ l, c.isDigit = true)
    (hne : l ≠ []) : hmsMatch l = none := by
  unfold hmsMatch
  rw [hmsGroup_all_digits isHch l hdig]
  dsimp only
  rw [hmsGroup_all_digits isMch l hdig]
  dsimp only
  rw [hmsGroup_all_digits isSch l hdig]
  simp [hne]

theorem parse_all_digits (l : List Char) (hne : l ≠ [])
    (hdig : ∀ c ∈ l, c.isDigit = true) :
    parse_time_to_seconds l = some (toNum l) := by
  unfold parse_time_to_seconds
  rw [pyStrip_eq_self _ (fun c hc => isDigit_not_ws c (hdig c hc))]
  have hm := hmsMatch_all_digits l hdig hne
  have hnc : l.contains ':' = false := by
    simpa using fun hm2 => absurd (hdig ':' hm2) (by decide)
  simp only [hm, hnc]
  simp only [Bool.false_eq_true, if_false]
  rw [if_pos ⟨hne, List.all_eq_true.2 hdig⟩]

theorem hmsMatch_digits_s (p0 : List Char) (c0 : Char) (Y : List Char)
    (hp0 : ∀ c ∈ p0, c.isDigit = true) (hne : p0 ≠ []) (hs : isSch c0 = true) :
    hmsMatch (p0 ++ c0 :: Y) = if Y = [] then some (toNum p0) else none := by
  have hcd : c0.isDigit = false := isSch_not_digit c0 hs
  unfold hmsMatch
  rw [hmsGroup_extend isHch p0 c0 Y hcd (isSch_not_isHch c0 hs),
    hmsGroup_all_digits isHch p0 hp0]
  dsimp only
  rw [hmsGroup_extend isMch p0 c0 Y hcd (isSch_not_isMch c0 hs),
    hmsGroup_all_digits isMch p0 hp0]
  dsimp only
  rw [hmsGroup_digits_letter isSch p0 c0 Y hp0 hne hcd hs]
  dsimp only
  by_cases hY : Y = []
  · rw [if_pos ⟨hY, by simp⟩, if_pos hY]
    simp
  · rw [if_neg (by simp [hY]), if_neg hY]

theorem hmsMatch_extend_s (p0 : List Char) (c0 : Char) (Y : List Char) (a : Nat)
    (hmatch : hmsMatch p0 = some a)
    (hnoS : ∀ c ∈ p0, isSch c = false)
    (hcd : c0.isDigit = false) (hH : isHch c0 = false) (hM : isMch c0 = false) :
    hmsMatch (p0 ++ c0 :: Y) = none := by
  unfold hmsMatch at hmatch ⊢
  rcases hg1 : hmsGroup isHch p0 with ⟨h1, l1⟩
  have hsub1 : ∀ c ∈ l1, c ∈ p0 := by
    rcases hmsGroup_inv _ _ _ _ hg1 with ⟨-, hl⟩ | ⟨d, x, hl, -, -, -, -⟩
    · rw [hl]; exact fun c hc => hc
    · rw [hl]; intro c hc; simp [hc]
  rw [hg1] at hmatch
  dsimp only at hmatch
  rcases hg2 : hmsGroup isMch l1 with ⟨h2, l2⟩
  have hsub2 : ∀ c ∈ l2, c ∈ l1 := by
    rcases hmsGroup_inv _ _ _ _ hg2 with ⟨-, hl⟩ | ⟨d, x, hl, -, -, -, -⟩
    · rw [hl]; exact fun c hc => hc
    · rw [hl]; intro c hc; simp [hc]
  rw [hg2] at hmatch
  dsimp only at hmatch
  rcases hg3 : hmsGroup isSch l2 with ⟨h3, l3⟩
  rw [hg3] at hmatch
  dsimp only at hmatch
  have hl3 : l3 = l2 ∧ h3 = none := by
    rcases hmsGroup_inv _ _ _ _ hg3 with ⟨he, hl⟩ | ⟨d, x, hl, -, -, hp, -⟩
    · exact ⟨hl, he⟩
    · exfalso
      have hx : x ∈ l2 := by rw [hl]; simp
      exact absurd hp (by simp [hnoS x (hsub1 x (hsub2 x hx))])
  obtain ⟨hl3e, hh3⟩ := hl3
  subst hl3e
  subst hh3
  split at hmatch
  next hcond =>
    obtain ⟨hl2nil, -⟩ := hcond
    rw [hmsGroup_extend isHch p0 c0 Y hcd hH, hg1]
    dsimp only
    rw [hmsGroup_extend isMch l1 c0 Y hcd hM, hg2]
    dsimp only
    rw [hl2nil, List.nil_append]
    rw [show hmsGroup isSch (c0 :: Y) = (none, c0 :: Y) by
      unfold hmsGroup; rw [hmsStep_nondigit_head isSch c0 Y hcd]]
    simp
  next => exact absurd hmatch (by simp)

/-! ### Colon-split filtering lemmas (for C7) -/

theorem splitOnColon_ne_nil (l : List Char) : splitOnColon l ≠ [] := by
  induction l with
  | nil => simp [splitOnColon]
  | cons c r ih =>
    unfold splitOnColon
    split
    · simp
    · cases h : splitOnColon r with
      | nil => simp
      | cons p ps => simp

theorem splitOnColon_comp_subset : ∀ (l : List Char), ∀ comp ∈ splitOnColon l,
    ∀ c ∈ comp, c ∈ l := by
  intro l
  induction l with
  | nil => intro comp hcomp c hc; simp [splitOnColon] at hcomp; subst hcomp; simp at hc
  | cons x r ih =>
    intro comp hcomp c hc
    unfold splitOnColon at hcomp
    split at hcomp
    · rcases List.mem_cons.1 hcomp with rfl | hcomp
      · simp at hc
      · exact List.mem_cons_of_mem _ (ih comp hcomp c hc)
    · rcases hsp : splitOnColon r with _ | ⟨p, ps⟩
      · exact absurd hsp (splitOnColon_ne_nil r)
      · rw [hsp] at hcomp
        rcases List.mem_cons.1 hcomp with rfl | hcomp
        · rcases List.mem_cons.1 hc with rfl | hc
          · exact List.mem_cons_self _ _
          · exact List.mem_cons_of_mem _ (ih p (by rw [hsp]; exact List.mem_cons_self _ _) c hc)
        · exact List.mem_cons_of_mem _
            (ih comp (by rw [hsp]; exact List.mem_cons_of_mem _ hcomp) c hc)

theorem splitOnColon_comp_no_colon : ∀ (l : List Char), ∀ comp ∈ splitOnColon l,
    ∀ c ∈ comp, c ≠ ':' := by
  intro l
  induction l with
  | nil => intro comp hcomp c hc; simp [splitOnColon] at hcomp; subst hcomp; simp at hc
  | cons x r ih =>
    intro comp hcomp c hc
    unfold splitOnColon at hcomp
    split at hcomp
    · rcases List.mem_cons.1 hcomp with rfl | hcomp
      · simp at hc
      · exact ih comp hcomp c hc
    · next hx =>
      rcases hsp : splitOnColon r with _ | ⟨p, ps⟩
      · exact absurd hsp (splitOnColon_ne_nil r)
      · rw [hsp] at hcomp
        rcases List.mem_cons.1 hcomp with rfl | hcomp
        · rcases List.mem_cons.1 hc with rfl | hc
          · exact hx
          · exact ih p (by rw [hsp]; exact List.mem_cons_self _ _) c hc
        · exact ih comp (by rw [hsp]; exact List.mem_cons_of_mem _ hcomp) c hc

theorem stripIsDigit_nil : stripIsDigit [] = false := rfl

theorem stripIsDigit_cons_nondigit (c : Char) (p : List Char)
    (hcd : c.isDigit = false) (hcw : isWsChar c = false) :
    stripIsDigit (c :: p) = false := by
  unfold stripIsDigit pyStrip
  rw [List.dropWhile_cons_of_neg (by simp [hcw])]
  rcases hz : ((c :: p).reverse.dropWhile isWsChar).reverse with _ | ⟨z, Z⟩
  · have : (c :: p).reverse.dropWhile isWsChar = [] := by
      have := congrArg List.reverse hz
      simpa using this
    rw [List.dropWhile_eq_nil_iff] at this
    have hcws := this c (by simp)
    rw [hcws] at hcw
    simp at hcw
  · have hpref : (z :: Z) <+: (c :: p) := by
      rw [← hz]
      have h0 : ((c :: p).reverse.dropWhile isWsChar).reverse <+: ((c :: p).reverse).reverse :=
        List.reverse_prefix.2 (List.dropWhile_suffix _)
      rw [List.reverse_reverse] at h0
      exact h0
    obtain ⟨t, ht⟩ := hpref
    have hz2 : z = c := by
      have := ht
      rw [List.cons_append] at this
      exact (List.cons.injEq _ _ _ _ ▸ this).1
    subst hz2
    simp [hcd]

theorem stripIsDigit_sS (comp : List Char) (h : ∀ c ∈ comp, isSch c = true) :
    stripIsDigit comp = false := by
  cases comp with
  | nil => rfl
  | cons c r =>
    have hs := h c (List.mem_cons_self _ _)
    exact stripIsDigit_cons_nondigit c r (isSch_not_digit c hs) (isSch_facts c hs).2

theorem filter_splitOnColon_sS (X : List Char)
    (hX : ∀ c ∈ X, isSch c = true ∨ c = ':') :
    (splitOnColon X).filter stripIsDigit = [] := by
  rw [List.filter_eq_nil_iff]
  intro comp hcomp
  have hsub := splitOnColon_comp_subset X comp hcomp
  have hnc := splitOnColon_comp_no_colon X comp hcomp
  have : ∀ c ∈ comp, isSch c = true := by
    intro c hc
    rcases hX c (hsub c hc) with h | h
    · exact h
    · exact absurd h (hnc c hc)
  simp [stripIsDigit_sS comp this]

theorem filter_splitOnColon_sS_prefix : ∀ (X p1 : List Char),
    (∀ c ∈ X, isSch c = true ∨ c = ':') → (∀ c ∈ p1, c ≠ ':') →
    ((splitOnColon (X ++ p1)).filter stripIsDigit).length ≤ 1 := by
  intro X
  induction X with
  | nil =>
    intro p1 _ hp1
    rw [List.nil_append, splitOnColon_no_colon p1 hp1]
    by_cases h : stripIsDigit p1 = true <;> simp [List.filter, h]
  | cons x X ih =>
    intro p1 hX hp1
    rcases hX x (List.mem_cons_self _ _) with hxs | rfl
    · rw [List.cons_append]
      conv_lhs => rw [splitOnColon]
      rw [if_neg ((isSch_cases x hxs).elim (fun h => by rw [h]; decide)
        (fun h => by rw [h]; decide))]
      rcases hsp : splitOnColon (X ++ p1) with _ | ⟨p, ps⟩
      · exact absurd hsp (splitOnColon_ne_nil _)
      · have hlen := ih p1 (fun c hc => hX c (List.mem_cons_of_mem _ hc)) hp1
        rw [hsp] at hlen
        rw [List.filter_cons_of_neg (by
          simp [stripIsDigit_cons_nondigit x p (isSch_not_digit x hxs)
            (isSch_facts x hxs).2])]
        rw [List.filter_cons] at hlen
        split at hlen
        · rw [List.length_cons] at hlen
          omega
        · exact hlen
    · rw [List.cons_append]
      conv_lhs => rw [splitOnColon]
      rw [if_pos rfl]
      rw [List.filter_cons_of_neg (by simp [stripIsDigit_nil])]
      exact ih p1 (fun c hc => hX c (List.mem_cons_of_mem _ hc)) hp1

/-! ### Parse characterization lemmas (for C7) -/

theorem hmsMatch_nil : hmsMatch [] = none := rfl

theorem isSch_is_delim (c : Char) (h : isSch c = true) : isDelimChar c = true := by
  rcases isSch_cases c h with rfl | rfl <;> decide

theorem digit_not_isSch (c : Char) (h : c.isDigit = true) : isSch c = false := by
  by_contra hs
  rw [Bool.not_eq_false] at hs
  exact absurd h (by simp [isSch_not_digit c hs])

theorem isHch_not_isSch (c : Char) (h : isHch c = true) : isSch c = false := by
  rcases isHch_cases c h with rfl | rfl <;> decide

theorem isMch_not_isSch (c : Char) (h : isMch c = true) : isSch c = false := by
  rcases isMch_cases c h with rfl | rfl <;> decide

theorem isHch_ne_colon (c : Char) (h : isHch c = true) : c ≠ ':' := by
  rcases isHch_cases c h with rfl | rfl <;> decide

theorem isMch_ne_colon (c : Char) (h : isMch c = true) : c ≠ ':' := by
  rcases isMch_cases c h with rfl | rfl <;> decide

theorem isSch_ne_colon (c : Char) (h : isSch c = true) : c ≠ ':' := by
  rcases isSch_cases c h with rfl | rfl <;> decide

/-- A part character (digit or `H`/`M` letter) is not whitespace. -/
theorem classChar_not_ws (c : Char)
    (h : c.isDigit = true ∨ isHch c = true ∨ isMch c = true) : isWsChar c = false := by
  rcases h with h | h | h
  · exact isDigit_not_ws c h
  · exact (isHch_facts c h).2.2
  · exact (isMch_facts c h).2.2

/-- A part character is not a colon. -/
theorem classChar_ne_colon (c : Char)
    (h : c.isDigit = true ∨ isHch c = true ∨ isMch c = true) : c ≠ ':' := by
  rcases h with h | h | h
  · exact isDigit_ne_colon c h
  · exact isHch_ne_colon c h
  · exact isMch_ne_colon c h

/-- A part character is not an `S`. -/
theorem classChar_not_sS (c : Char)
    (h : c.isDigit = true ∨ isHch c = true ∨ isMch c = true) : isSch c = false := by
  rcases h with h | h | h
  · exact digit_not_isSch c h
  · exact isHch_not_isSch c h
  · exact isMch_not_isSch c h

/-- A glue character (`s`/`S` or colon) is not whitespace. -/
theorem glueChar_not_ws (c : Char) (h : isSch c = true ∨ c = ':') :
    isWsChar c = false := by
  rcases h with h | rfl
  · exact (isSch_facts c h).2
  · decide

theorem hmsMatch_nondigit_head (c0 : Char) (Y : List Char) (h : c0.isDigit = false) :
    hmsMatch (c0 :: Y) = none := by
  unfold hmsMatch
  rw [show hmsGroup isHch (c0 :: Y) = (none, c0 :: Y) from by
    unfold hmsGroup; rw [hmsStep_nondigit_head isHch c0 Y h]]
  dsimp only
  rw [show hmsGroup isMch (c0 :: Y) = (none, c0 :: Y) from by
    unfold hmsGroup; rw [hmsStep_nondigit_head isMch c0 Y h]]
  dsimp only
  rw [show hmsGroup isSch (c0 :: Y) = (none, c0 :: Y) from by
    unfold hmsGroup; rw [hmsStep_nondigit_head isSch c0 Y h]]
  simp

/-- What a successful parse of a delimiter-free, already-stripped string
says about its characters: non-empty, and every character is a digit or an
`H`/`M` letter. -/
theorem parse_chars (p : List Char) (hnd : ∀ c ∈ p, isDelimChar c = false)
    (hstrip : pyStrip p = p) (v : Nat) (h : parse_time_to_seconds p = some v) :
    p ≠ [] ∧ ∀ c ∈ p, (c.isDigit = true ∨ isHch c = true ∨ isMch c = true) := by
  have hnc : (':' : Char) ∉ p := fun hm => absurd (hnd ':' hm) (by decide)
  unfold parse_time_to_seconds at h
  rw [hstrip] at h
  cases hm : hmsMatch p with
  | some w =>
    constructor
    · intro he
      rw [he, hmsMatch_nil] at hm
      exact absurd hm (by simp)
    · intro c hc
      rcases hmsMatch_chars p w hm c hc with h1 | h1 | h1 | h1
      · exact Or.inl h1
      · exact Or.inr (Or.inl h1)
      · exact Or.inr (Or.inr h1)
      · exact absurd (hnd c hc) (by simp [isSch_is_delim c h1])
  | none =>
    have hc2 : p.contains ':' = false := by simpa using hnc
    simp only [hm, hc2, Bool.false_eq_true, if_false] at h
    split at h
    next hcond =>
      injection h with hv
      exact ⟨hcond.1, fun c hc => Or.inl (List.all_eq_true.1 hcond.2 c hc)⟩
    next => exact absurd h (by simp)

/-! ### Glue-extension value lemmas (for C7) -/

/-- Split a glue string (`s`/`S`/colon characters) at its first colon. -/
theorem glue_split (q : List Char) (hq : ∀ c ∈ q, isSch c = true ∨ c = ':')
    (hcol : (':' : Char) ∈ q) :
    ∃ qa qb, q = qa ++ ':' :: qb ∧ (∀ c ∈ qa, isSch c = true) ∧
      (∀ c ∈ qb, isSch c = true ∨ c = ':') := by
  have hdec := (List.takeWhile_append_dropWhile (p := fun c => c != ':') (l := q)).symm
  rcases hdw : q.dropWhile (fun c => c != ':') with _ | ⟨r0, rb⟩
  · exfalso
    rw [List.dropWhile_eq_nil_iff] at hdw
    have := hdw ':' hcol
    simp at this
  · have hr0 : r0 = ':' := by
      have hh := List.head?_dropWhile_not (fun c => c != ':') q
      rw [hdw] at hh
      simp only [List.head?_cons, Option.filter] at hh
      by_contra hne
      simp [bne, hne] at hh
    subst hr0
    refine ⟨q.takeWhile (fun c => c != ':'), rb, by conv_lhs => rw [hdec, hdw]
      , ?_, ?_⟩
    · intro c hc
      have hmem : c ∈ q := by
        rw [hdec]
        exact List.mem_append.2 (Or.inl hc)
      have hpred := List.mem_takeWhile_imp hc
      simp only [bne_iff_ne, ne_eq] at hpred
      exact (hq c hmem).resolve_right hpred
    · intro c hc
      have hmem : c ∈ q := by
        rw [hdec, hdw]
        exact List.mem_append.2 (Or.inr (List.mem_cons_of_mem _ hc))
      exact hq c hmem

/-- V1: appending glue characters to a parsed part cannot change the parsed
value — if both the part and the part-plus-glue parse, the values agree. -/
theorem parse_extend_eq (p0 q0 : List Char) (a a' : Nat)
    (hp0c : ∀ c ∈ p0, c.isDigit = true ∨ isHch c = true ∨ isMch c = true)
    (hp0ne : p0 ≠ [])
    (hq0 : ∀ c ∈ q0, isSch c = true ∨ c = ':')
    (hpa : parse_time_to_seconds p0 = some a')
    (hta : parse_time_to_seconds (p0 ++ q0) = some a) :
    a = a' := by
  have hp0nw : ∀ c ∈ p0, isWsChar c = false := fun c hc => classChar_not_ws c (hp0c c hc)
  have hp0ncol : ∀ c ∈ p0, c ≠ ':' := fun c hc => classChar_ne_colon c (hp0c c hc)
  by_cases hcol : (':' : Char) ∈ q0
  · exfalso
    obtain ⟨qa, qb, hqdec, hqa, hqb⟩ := glue_split q0 hq0 hcol
    have hT : p0 ++ q0 = (p0 ++ qa) ++ ':' :: qb := by
      rw [hqdec, ← List.append_assoc]
    have hTnw : ∀ c ∈ p0 ++ q0, isWsChar c = false := by
      intro c hc
      rcases List.mem_append.1 hc with hc | hc
      · exact hp0nw c hc
      · exact glueChar_not_ws c (hq0 c hc)
    have hcolT : (':' : Char) ∈ p0 ++ q0 := List.mem_append.2 (Or.inr hcol)
    have hAnocol : ∀ c ∈ p0 ++ qa, c ≠ ':' := by
      intro c hc
      rcases List.mem_append.1 hc with hc | hc
      · exact hp0ncol c hc
      · exact isSch_ne_colon c (hqa c hc)
    unfold parse_time_to_seconds at hta
    rw [pyStrip_eq_self _ hTnw] at hta
    have hm := hmsMatch_none_of_colon _ hcolT
    have hcont : (p0 ++ q0).contains ':' = true := List.elem_iff.2 hcolT
    simp only [hm, hcont, if_true] at hta
    have hsplit : splitOnColon (p0 ++ q0) = (p0 ++ qa) :: splitOnColon qb := by
      rw [hT]
      exact splitOnColon_append _ _ hAnocol
    have hrest : (splitOnColon qb).filter stripIsDigit = [] :=
      filter_splitOnColon_sS qb hqb
    have hfl : (splitOnColon (p0 ++ q0)).filter stripIsDigit = [] ∨
        (splitOnColon (p0 ++ q0)).filter stripIsDigit = [p0 ++ qa] := by
      rw [hsplit, List.filter_cons]
      split
      · right; rw [hrest]
      · left; exact hrest
    have hall : (p0 ++ q0).all Char.isDigit = false := by
      by_contra hx
      rw [Bool.not_eq_false] at hx
      exact absurd (List.all_eq_true.1 hx ':' hcolT) (by decide)
    rcases hfl with hfl | hfl <;>
      · rw [hfl] at hta
        simp only [hall, Bool.false_eq_true, and_false, if_false] at hta
        exact absurd hta (by simp)
  · have hq0s : ∀ c ∈ q0, isSch c = true := fun c hc =>
      (hq0 c hc).resolve_right (fun he => hcol (he ▸ hc))
    cases q0 with
    | nil =>
      rw [List.append_nil] at hta
      rw [hta] at hpa
      injection hpa
    | cons c0 q0t =>
      have hc0s : isSch c0 = true := hq0s c0 (List.mem_cons_self _ _)
      have hc0d : c0.isDigit = false := isSch_not_digit c0 hc0s
      have hTnw : ∀ c ∈ p0 ++ c0 :: q0t, isWsChar c = false := by
        intro c hc
        rcases List.mem_append.1 hc with hc | hc
        · exact hp0nw c hc
        · exact (isSch_facts c (hq0s c hc)).2
      have hncolT : (':' : Char) ∉ p0 ++ c0 :: q0t := by
        intro hc
        rcases List.mem_append.1 hc with hc | hc
        · exact hp0ncol ':' hc rfl
        · exact isSch_ne_colon ':' (hq0s ':' hc) rfl
      unfold parse_time_to_seconds at hta
      rw [pyStrip_eq_self _ hTnw] at hta
      have hcont : (p0 ++ c0 :: q0t).contains ':' = false := by simpa using hncolT
      have hall : (p0 ++ c0 :: q0t).all Char.isDigit = false := by
        by_contra hx
        rw [Bool.not_eq_false] at hx
        exact absurd (List.all_eq_true.1 hx c0 (by simp)) (by simp [hc0d])
      cases hm : hmsMatch (p0 ++ c0 :: q0t) with
      | none =>
        simp only [hm, hcont, Bool.false_eq_true, if_false, hall, and_false] at hta
        exact absurd hta (by simp)
      | some w =>
        simp only [hm] at hta
        injection hta with hw
        subst hw
        by_cases hpd : ∀ c ∈ p0, c.isDigit = true
        · rw [hmsMatch_digits_s p0 c0 q0t hpd hp0ne hc0s] at hm
          split at hm
          next =>
            injection hm with hw2
            rw [parse_all_digits p0 hp0ne hpd] at hpa
            injection hpa with hw3
            rw [← hw2, ← hw3]
          next => exact absurd hm (by simp)
        · have hp0m : hmsMatch p0 = some a' := by
            unfold parse_time_to_seconds at hpa
            rw [pyStrip_eq_self _ hp0nw] at hpa
            cases hmm : hmsMatch p0 with
            | some u => simp only [hmm] at hpa; injection hpa with hu; rw [hu]
            | none =>
              exfalso
              have hcont0 : p0.contains ':' = false := by
                simpa using fun hc => hp0ncol ':' hc rfl
              have hall0 : p0.all Char.isDigit = false := by
                by_contra hx
                rw [Bool.not_eq_false] at hx
                exact hpd (List.all_eq_true.1 hx)
              simp only [hmm, hcont0, Bool.false_eq_true, if_false, hall0,
                and_false] at hpa
              exact absurd hpa (by simp)
          rw [hmsMatch_extend_s p0 c0 q0t a' hp0m
            (fun c hc => classChar_not_sS c (hp0c c hc)) hc0d
            (isSch_not_isHch c0 hc0s) (isSch_not_isMch c0 hc0s)] at hm
          exact absurd hm (by simp)


/-- V2: glue characters cannot prefix a parseable time — a string made of
leading `s`/`S`/colon characters followed by a part never parses. -/
theorem parse_prefix_garbage (q1 p1 : List Char) (b : Nat)
    (hq1ne : q1 ≠ [])
    (hq1 : ∀ c ∈ q1, isSch c = true ∨ c = ':')
    (hp1c : ∀ c ∈ p1, c.isDigit = true ∨ isHch c = true ∨ isMch c = true)
    (h : parse_time_to_seconds (q1 ++ p1) = some b) : False := by
  have hp1nw : ∀ c ∈ p1, isWsChar c = false := fun c hc => classChar_not_ws c (hp1c c hc)
  have hp1ncol : ∀ c ∈ p1, c ≠ ':' := fun c hc => classChar_ne_colon c (hp1c c hc)
  have hTnw : ∀ c ∈ q1 ++ p1, isWsChar c = false := by
    intro c hc
    rcases List.mem_append.1 hc with hc | hc
    · exact glueChar_not_ws c (hq1 c hc)
    · exact hp1nw c hc
  unfold parse_time_to_seconds at h
  rw [pyStrip_eq_self _ hTnw] at h
  by_cases hcol : (':' : Char) ∈ q1
  · obtain ⟨qa, qb, hqdec, hqa, hqb⟩ := glue_split q1 hq1 hcol
    have hT : q1 ++ p1 = qa ++ ':' :: (qb ++ p1) := by
      rw [hqdec, List.append_assoc, List.cons_append]
    have hcolT : (':' : Char) ∈ q1 ++ p1 := List.mem_append.2 (Or.inl hcol)
    have hm := hmsMatch_none_of_colon _ hcolT
    have hcont : (q1 ++ p1).contains ':' = true := List.elem_iff.2 hcolT
    simp only [hm, hcont, if_true] at h
    have hsplit : splitOnColon (q1 ++ p1) = qa :: splitOnColon (qb ++ p1) := by
      rw [hT]
      exact splitOnColon_append _ _ (fun c hc => isSch_ne_colon c (hqa c hc))
    have hqaF : stripIsDigit qa = false := stripIsDigit_sS qa hqa
    have hlen : ((splitOnColon (q1 ++ p1)).filter stripIsDigit).length ≤ 1 := by
      rw [hsplit, List.filter_cons_of_neg (by simp [hqaF])]
      exact filter_splitOnColon_sS_prefix qb p1 hqb hp1ncol
    have hall : (q1 ++ p1).all Char.isDigit = false := by
      by_contra hx
      rw [Bool.not_eq_false] at hx
      exact absurd (List.all_eq_true.1 hx ':' hcolT) (by decide)
    rcases hfl : (splitOnColon (q1 ++ p1)).filter stripIsDigit with _ | ⟨x, _ | ⟨y, r⟩⟩
    · rw [hfl] at h
      simp only [hall, Bool.false_eq_true, and_false, if_false] at h
      exact absurd h (by simp)
    · rw [hfl] at h
      simp only [hall, Bool.false_eq_true, and_false, if_false] at h
      exact absurd h (by simp)
    · rw [hfl] at hlen
      simp at hlen
  · have hq1s : ∀ c ∈ q1, isSch c = true := fun c hc =>
      (hq1 c hc).resolve_right (fun he => hcol (he ▸ hc))
    cases q1 with
    | nil => exact hq1ne rfl
    | cons c0 q1t =>
      have hc0s : isSch c0 = true := hq1s c0 (List.mem_cons_self _ _)
      have hc0d : c0.isDigit = false := isSch_not_digit c0 hc0s
      have hT : (c0 :: q1t) ++ p1 = c0 :: (q1t ++ p1) := List.cons_append _ _ _
      rw [hT] at h
      have hm := hmsMatch_nondigit_head c0 (q1t ++ p1) hc0d
      have hncolT : (':' : Char) ∉ c0 :: (q1t ++ p1) := by
        intro hc
        rcases List.mem_cons.1 hc with he | hc
        · exact isSch_ne_colon c0 hc0s he.symm
        · rcases List.mem_append.1 hc with hc | hc
          · exact isSch_ne_colon ':' (hq1s ':' (List.mem_cons_of_mem _ hc)) rfl
          · exact hp1ncol ':' hc rfl
      have hcont : (c0 :: (q1t ++ p1)).contains ':' = false := by simpa using hncolT
      have hall : (c0 :: (q1t ++ p1)).all Char.isDigit = false := by
        by_contra hx
        rw [Bool.not_eq_false] at hx
        exact absurd (List.all_eq_true.1 hx c0 (by simp)) (by simp [hc0d])
      simp only [hm, hcont, Bool.false_eq_true, if_false, hall, and_false] at h
      exact absurd h (by simp)

/-! ### Token-scanner lemmas (for C7) -/

/-- Running the token scanner with a non-empty accumulator: the pending
token absorbs the maximal time-character run, and scanning resumes after
it. -/
theorem ftGo_acc : ∀ (r cur : List Char), cur ≠ [] →
    ftGo r cur = (cur.reverse ++ r.takeWhile isTimeChar) :: ftGo (r.dropWhile isTimeChar) [] := by
  intro r
  induction r with
  | nil =>
    intro cur hne
    simp [ftGo, List.isEmpty_iff, hne]
  | cons c r ih =>
    intro cur hne
    by_cases hc : isTimeChar c = true
    · rw [show ftGo (c :: r) cur = ftGo r (c :: cur) from by simp [ftGo, hc]]
      rw [ih (c :: cur) (by simp)]
      rw [List.takeWhile_cons_of_pos hc, List.dropWhile_cons_of_pos hc]
      simp
    · rw [List.takeWhile_cons_of_neg (by simp [hc]), List.dropWhile_cons_of_neg (by simp [hc])]
      rw [show ftGo (c :: r) cur = cur.reverse :: ftGo r [] from by
        simp [ftGo, hc, List.isEmpty_iff, hne]]
      simp [ftGo, hc]

/-- Token scan of a string headed by a time character. -/
theorem findTokens_time_head (c : Char) (r : List Char) (hc : isTimeChar c = true) :
    findTokens (c :: r) = (c :: r.takeWhile isTimeChar) :: findTokens (r.dropWhile isTimeChar) := by
  unfold findTokens
  rw [show ftGo (c :: r) [] = ftGo r [c] from by simp [ftGo, hc]]
  rw [ftGo_acc r [c] (by simp)]
  simp

/-- Tokens do not cross a non-time character. -/
theorem findTokens_append_cons : ∀ (A : List Char) (c : Char) (B : List Char),
    isTimeChar c = false →
    findTokens (A ++ c :: B) = findTokens A ++ findTokens B := by
  have main : ∀ (A : List Char) (cur : List Char) (c : Char) (B : List Char),
      isTimeChar c = false →
      ftGo (A ++ c :: B) cur = ftGo A cur ++ ftGo B [] := by
    intro A
    induction A with
    | nil =>
      intro cur c B hc
      by_cases hcur : cur = []
      · subst hcur
        simp [ftGo, hc]
      · simp [ftGo, hc, List.isEmpty_iff, hcur]
    | cons a A ih =>
      intro cur c B hc
      by_cases ha : isTimeChar a = true
      · rw [List.cons_append]
        rw [show ftGo (a :: (A ++ c :: B)) cur = ftGo (A ++ c :: B) (a :: cur) from by
          simp [ftGo, ha]]
        rw [ih (a :: cur) c B hc]
        rw [show ftGo (a :: A) cur = ftGo A (a :: cur) from by simp [ftGo, ha]]
      · by_cases hcur : cur = []
        · subst hcur
          rw [List.cons_append]
          rw [show ftGo (a :: (A ++ c :: B)) [] = ftGo (A ++ c :: B) [] from by
            simp [ftGo, ha]]
          rw [ih [] c B hc]
          rw [show ftGo (a :: A) [] = ftGo A [] from by simp [ftGo, ha]]
        · rw [List.cons_append]
          rw [show ftGo (a :: (A ++ c :: B)) cur = cur.reverse :: ftGo (A ++ c :: B) [] from by
            simp [ftGo, ha, List.isEmpty_iff, hcur]]
          rw [ih [] c B hc]
          rw [show ftGo (a :: A) cur = cur.reverse :: ftGo A [] from by
            simp [ftGo, ha, List.isEmpty_iff, hcur]]
          simp
  intro A c B hc
  exact main A [] c B hc

/-- A non-empty all-time string is its own single token. -/
theorem findTokens_all_time (l : List Char) (hne : l ≠ [])
    (hall : ∀ c ∈ l, isTimeChar c = true) : findTokens l = [l] := by
  cases l with
  | nil => exact absurd rfl hne
  | cons c r =>
    rw [findTokens_time_head c r (hall c (List.mem_cons_self _ _))]
    rw [List.takeWhile_eq_self_iff.2 (fun x hx => hall x (List.mem_cons_of_mem _ hx))]
    rw [List.dropWhile_eq_nil_iff.2 (fun x hx => hall x (List.mem_cons_of_mem _ hx))]
    rfl

/-- A string containing a time character has at least one token. -/
theorem findTokens_ne_nil : ∀ (l : List Char), (∃ c ∈ l, isTimeChar c = true) →
    findTokens l ≠ [] := by
  intro l
  induction l with
  | nil => rintro ⟨c, hc, -⟩; simp at hc
  | cons x r ih =>
    rintro ⟨c, hc, hct⟩
    by_cases hx : isTimeChar x = true
    · rw [findTokens_time_head x r hx]
      simp
    · rcases List.mem_cons.1 hc with rfl | hc
      · exact absurd hct hx
      · rw [show findTokens (x :: r) = findTokens r from by
          unfold findTokens; simp [ftGo, hx]]
        exact ih ⟨c, hc, hct⟩


/-- If scanning separator characters followed by a part yields a single
token, that token is the part with a (possibly empty) prefix of glue
characters (`s`/`S`/colon: the separator characters that are also time
characters). -/
theorem lastTok : ∀ (C p1 : List Char) (t1 : List Char),
    (∀ c ∈ C, isWsChar c = true ∨ isDelimChar c = true) →
    p1 ≠ [] → (∀ c ∈ p1, isTimeChar c = true) →
    findTokens (C ++ p1) = [t1] →
    ∃ q1, (∀ c ∈ q1, isSch c = true ∨ c = ':') ∧ t1 = q1 ++ p1 := by
  intro C
  induction C with
  | nil =>
    intro p1 t1 _ hne hall htok
    rw [List.nil_append, findTokens_all_time p1 hne hall] at htok
    injection htok with h1
    exact ⟨[], by simp, h1.symm⟩
  | cons c C ih =>
    intro p1 t1 hC hne hall htok
    by_cases hct : isTimeChar c = true
    · -- c is a glue character; the single token must swallow everything
      have hcglue : isSch c = true ∨ c = ':' := by
        rcases hC c (List.mem_cons_self _ _) with h | h
        · exact absurd hct (by simp [ws_not_time c h])
        · exact delim_time_cases c h hct
      rw [List.cons_append, findTokens_time_head c (C ++ p1) hct] at htok
      injection htok with h1 h2
      have hCall : ∀ x ∈ C, isTimeChar x = true := by
        by_contra hx
        push_neg at hx
        have hdC : (C.dropWhile isTimeChar).isEmpty = false := by
          rcases hdw : C.dropWhile isTimeChar with _ | ⟨d, D⟩
          · rw [List.dropWhile_eq_nil_iff] at hdw
            obtain ⟨x, hxm, hxt⟩ := hx
            exact absurd (hdw x hxm) hxt
          · rfl
        rw [List.dropWhile_append, hdC] at h2
        simp only [Bool.false_eq_true, if_false] at h2
        have hp1h : ∃ x ∈ C.dropWhile isTimeChar ++ p1, isTimeChar x = true := by
          rcases p1 with _ | ⟨y, Y⟩
          · exact absurd rfl hne
          · exact ⟨y, by simp, hall y (List.mem_cons_self _ _)⟩
        exact findTokens_ne_nil _ hp1h h2
      have hCglue : ∀ x ∈ C, isSch x = true ∨ x = ':' := by
        intro x hx
        rcases hC x (List.mem_cons_of_mem _ hx) with h | h
        · exact absurd (hCall x hx) (by simp [ws_not_time x h])
        · exact delim_time_cases x h (hCall x hx)
      have htk : (C ++ p1).takeWhile isTimeChar = C ++ p1 := by
        rw [List.takeWhile_eq_self_iff]
        intro x hx
        rcases List.mem_append.1 hx with hx | hx
        · exact hCall x hx
        · exact hall x hx
      refine ⟨c :: C, ?_, ?_⟩
      · intro x hx
        rcases List.mem_cons.1 hx with rfl | hx
        · exact hcglue
        · exact hCglue x hx
      · rw [← h1, htk]
        rfl
    · rw [List.cons_append,
        show findTokens (c :: (C ++ p1)) = findTokens [] ++ findTokens (C ++ p1) from
          findTokens_append_cons [] c (C ++ p1) (by simpa using hct)] at htok
      rw [show findTokens [] = [] from rfl, List.nil_append] at htok
      exact ih p1 t1 (fun x hx => hC x (List.mem_cons_of_mem _ hx)) hne hall htok

/-! ### Delimiter-split scanner lemmas (for C7) -/

theorem sdGo_length_pos : ∀ (fuel : Nat) (rest cur : List Char),
    1 ≤ (sdGo fuel rest cur).length := by
  intro fuel
  induction fuel with
  | zero => intro rest cur; simp [sdGo]
  | succ f ih =>
    intro rest cur
    cases rest with
    | nil => simp [sdGo]
    | cons c r =>
      unfold sdGo
      split
      · simp
      · exact ih r (c :: cur)

theorem sdGo_fuel_irrel : ∀ (n f1 f2 : Nat) (rest cur : List Char),
    rest.length ≤ n → n < f1 → n < f2 → sdGo f1 rest cur = sdGo f2 rest cur := by
  intro n
  induction n with
  | zero =>
    intro f1 f2 rest cur hlen h1 h2
    have he : rest = [] := List.length_eq_zero.1 (Nat.le_zero.1 hlen)
    subst he
    cases f1 with
    | zero => omega
    | succ f1 =>
      cases f2 with
      | zero => omega
      | succ f2 => rfl
  | succ n ih =>
    intro f1 f2 rest cur hlen h1 h2
    cases rest with
    | nil =>
      cases f1 with
      | zero => omega
      | succ f1 =>
        cases f2 with
        | zero => omega
        | succ f2 => rfl
    | cons c r =>
      cases f1 with
      | zero => omega
      | succ f1 =>
        cases f2 with
        | zero => omega
        | succ f2 =>
          unfold sdGo
          split
          · congr 1
            apply ih f1 f2 _ []
            · calc (((c :: r).dropWhile isDelimChar).dropWhile isWsChar).length
                  ≤ ((c :: r).dropWhile isDelimChar).length :=
                    (List.dropWhile_sublist _).length_le
                _ ≤ r.length := by
                    next hc =>
                      rw [List.dropWhile_cons_of_pos hc]
                      exact (List.dropWhile_sublist _).length_le
                _ ≤ n := by
                    rw [List.length_cons] at hlen
                    omega
            · omega
            · omega
          · apply ih f1 f2 r (c :: cur)
            · rw [List.length_cons] at hlen
              omega
            · omega
            · omega

theorem sdGo_no_delim : ∀ (rest : List Char) (cur : List Char) (fuel : Nat),
    rest.length < fuel → (∀ c ∈ rest, isDelimChar c = false) →
    sdGo fuel rest cur = [cur.reverse ++ rest] := by
  intro rest
  induction rest with
  | nil =>
    intro cur fuel hf _
    cases fuel with
    | zero => omega
    | succ f => simp [sdGo]
  | cons c r ih =>
    intro cur fuel hf hnd
    cases fuel with
    | zero => omega
    | succ f =>
      unfold sdGo
      rw [if_neg (by simp [hnd c (List.mem_cons_self _ _)])]
      rw [ih (c :: cur) f (by rw [List.length_cons] at hf; omega)
        (fun x hx => hnd x (List.mem_cons_of_mem _ hx))]
      simp

theorem sdGo_two_of_delim : ∀ (rest : List Char) (cur : List Char) (fuel : Nat),
    rest.length < fuel → (∃ c ∈ rest, isDelimChar c = true) →
    2 ≤ (sdGo fuel rest cur).length := by
  intro rest
  induction rest with
  | nil =>
    rintro cur fuel _ ⟨c, hc, -⟩
    simp at hc
  | cons c r ih =>
    rintro cur fuel hf ⟨d, hd, hdt⟩
    cases fuel with
    | zero => omega
    | succ f =>
      unfold sdGo
      split
      · simp only [List.length_cons]
        have := sdGo_length_pos f (((c :: r).dropWhile isDelimChar).dropWhile isWsChar) []
        omega
      · next hcd =>
        rcases List.mem_cons.1 hd with rfl | hd
        · exact absurd hdt (by simpa using hcd)
        · exact ih (c :: cur) f (by rw [List.length_cons] at hf; omega) ⟨d, hd, hdt⟩

theorem sdGo_accum : ∀ (X : List Char) (rest cur : List Char) (fuel : Nat),
    (∀ c ∈ X, isDelimChar c = false) → (X ++ rest).length < fuel →
    sdGo fuel (X ++ rest) cur = sdGo (rest.length + 1) rest (X.reverse ++ cur) := by
  intro X
  induction X with
  | nil =>
    intro rest cur fuel hnd hf
    simp only [List.nil_append, List.reverse_nil]
    exact sdGo_fuel_irrel rest.length fuel (rest.length + 1) rest cur le_rfl
      (by simpa using hf) (by omega)
  | cons x X ih =>
    intro rest cur fuel hnd hf
    cases fuel with
    | zero => omega
    | succ f =>
      rw [List.cons_append]
      conv_lhs => rw [sdGo]
      rw [if_neg (by simp [hnd x (List.mem_cons_self _ _)])]
      rw [ih rest (x :: cur) f (fun c hc => hnd c (List.mem_cons_of_mem _ hc))
        (by simp only [List.cons_append, List.length_cons] at hf
            simpa using Nat.lt_of_succ_lt_succ hf)]
      congr 1
      simp

/-! ### String-end lemmas (for C7) -/

theorem dropTrailingWs_pref (l : List Char) : dropTrailingWs l <+: l := by
  unfold dropTrailingWs
  have h0 : (l.reverse.dropWhile isWsChar).reverse <+: (l.reverse).reverse :=
    List.reverse_prefix.2 (List.dropWhile_suffix _)
  rwa [List.reverse_reverse] at h0

theorem dropTrailingWs_decomp (l : List Char) :
    ∃ w1, l = dropTrailingWs l ++ w1 ∧ ∀ c ∈ w1, isWsChar c = true := by
  refine ⟨(l.reverse.takeWhile isWsChar).reverse, ?_, ?_⟩
  · unfold dropTrailingWs
    conv_lhs => rw [← List.reverse_reverse l,
      ← List.takeWhile_append_dropWhile (p := isWsChar) (l := l.reverse)]
    rw [List.reverse_append]
  · intro c hc
    rw [List.mem_reverse] at hc
    exact List.all_eq_true.1 (List.all_takeWhile) c hc

theorem dropTrailingWs_getLast_not_ws (l : List Char) (c : Char)
    (h : (dropTrailingWs l).getLast? = some c) : isWsChar c = false := by
  unfold dropTrailingWs at h
  rw [List.getLast?_reverse] at h
  have hh := List.head?_dropWhile_not isWsChar l.reverse
  rw [h] at hh
  simpa using hh

theorem prefix_head?_eq (A B : List Char) (h : A <+: B) (hne : A ≠ []) :
    B.head? = A.head? := by
  obtain ⟨t, rfl⟩ := h
  cases A with
  | nil => exact absurd rfl hne
  | cons a A => rfl

theorem suffix_getLast?_eq (A B : List Char) (h : A <:+ B) (hne : A ≠ []) :
    B.getLast? = A.getLast? := by
  obtain ⟨t, rfl⟩ := h
  rw [List.getLast?_append]
  have hs : A.getLast?.isSome := by
    rw [List.getLast?_isSome]
    simpa using hne
  obtain ⟨x, hx⟩ := Option.isSome_iff_exists.1 hs
  rw [hx]
  rfl

theorem pyStrip_head_not_ws (l : List Char) (c : Char)
    (h : (pyStrip l).head? = some c) : isWsChar c = false := by
  have hps : pyStrip l = dropTrailingWs (l.dropWhile isWsChar) := rfl
  rw [hps] at h
  have hpre := dropTrailingWs_pref (l.dropWhile isWsChar)
  have hne : dropTrailingWs (l.dropWhile isWsChar) ≠ [] := by
    intro he
    rw [he] at h
    simp at h
  rw [← prefix_head?_eq _ _ hpre hne] at h
  have hh := List.head?_dropWhile_not isWsChar l
  rw [h] at hh
  simpa using hh

theorem pyStrip_getLast_not_ws (l : List Char) (c : Char)
    (h : (pyStrip l).getLast? = some c) : isWsChar c = false := by
  have hps : pyStrip l = dropTrailingWs (l.dropWhile isWsChar) := rfl
  rw [hps] at h
  exact dropTrailingWs_getLast_not_ws _ c h

theorem pyStrip_eq_self_of_ends (l : List Char)
    (hh : ∀ c, l.head? = some c → isWsChar c = false)
    (hl : ∀ c, l.getLast? = some c → isWsChar c = false) : pyStrip l = l := by
  unfold pyStrip
  have h1 : l.dropWhile isWsChar = l := by
    cases l with
    | nil => rfl
    | cons c r => exact List.dropWhile_cons_of_neg (by simp [hh c rfl])
  rw [h1]
  have h2 : l.reverse.dropWhile isWsChar = l.reverse := by
    cases hr : l.reverse with
    | nil => rfl
    | cons e s =>
      have hlast : l.getLast? = some e := by
        rw [← List.head?_reverse, hr]
        rfl
      exact List.dropWhile_cons_of_neg (by simp [hl e hlast])
  rw [h2, List.reverse_reverse]


/-- Inversion of a two-part delimiter split: the input decomposes into a
delimiter-free prefix, a non-empty delimiter run, a whitespace run and a
delimiter-free tail that does not start with whitespace; the first part is
the prefix with its trailing whitespace dropped and the second part is the
tail. -/
theorem splitDelim_two (t p0 p1 : List Char) (h : splitDelim t = [p0, p1]) :
    ∃ pre D w2 post,
      t = pre ++ D ++ w2 ++ post ∧
      (∀ c ∈ pre, isDelimChar c = false) ∧
      D ≠ [] ∧ (∀ c ∈ D, isDelimChar c = true) ∧
      (∀ c ∈ w2, isWsChar c = true) ∧
      (∀ c ∈ post, isDelimChar c = false) ∧
      (∀ c, post.head? = some c → isWsChar c = false) ∧
      p0 = dropTrailingWs pre ∧ p1 = post := by
  have hdec := (List.takeWhile_append_dropWhile
    (p := fun c => !isDelimChar c) (l := t)).symm
  set pre := t.takeWhile (fun c => !isDelimChar c) with hpre_def
  set rest := t.dropWhile (fun c => !isDelimChar c) with hrest_def
  have hpre : ∀ c ∈ pre, isDelimChar c = false := by
    intro c hc
    have := List.mem_takeWhile_imp hc
    simpa using this
  rcases hrest : rest with _ | ⟨d, rr⟩
  · exfalso
    have hnd : ∀ c ∈ t, isDelimChar c = false := by
      intro c hc
      rw [hdec, hrest, List.append_nil] at hc
      exact hpre c hc
    unfold splitDelim at h
    rw [sdGo_no_delim t [] (t.length + 1) (by omega) hnd] at h
    have := congrArg List.length h
    simp at this
  · have hd : isDelimChar d = true := by
      have hh := List.head?_dropWhile_not (fun c => !isDelimChar c) t
      rw [← hrest_def, hrest] at hh
      simpa using hh
    have hsd : splitDelim t = sdGo (rest.length + 1) rest pre.reverse := by
      unfold splitDelim
      conv_lhs => rw [hdec]
      rw [sdGo_accum pre rest [] ((pre ++ rest).length + 1) hpre (by omega)]
      rw [List.append_nil]
    have hstep : sdGo (rest.length + 1) rest pre.reverse =
        (pre.reverse.dropWhile isWsChar).reverse ::
          sdGo rest.length ((rest.dropWhile isDelimChar).dropWhile isWsChar) [] := by
      conv_lhs => rw [hrest]
      conv_lhs => rw [sdGo]
      rw [if_pos hd]
      rw [← hrest]
    rw [hsd, hstep] at h
    injection h with h0 h1
    set D := rest.takeWhile isDelimChar with hD_def
    set rem := rest.dropWhile isDelimChar with hrem_def
    set w2 := rem.takeWhile isWsChar with hw2_def
    set post := rem.dropWhile isWsChar with hpost_def
    have hDne : D ≠ [] := by
      rw [hD_def, hrest, List.takeWhile_cons_of_pos hd]
      simp
    have hD : ∀ c ∈ D, isDelimChar c = true :=
      fun c hc => List.all_eq_true.1 List.all_takeWhile c hc
    have hw2 : ∀ c ∈ w2, isWsChar c = true :=
      fun c hc => List.all_eq_true.1 List.all_takeWhile c hc
    have hlen : post.length < rest.length := by
      have h1l : D.length + rem.length = rest.length := by
        rw [hD_def, hrem_def, ← List.length_append, List.takeWhile_append_dropWhile]
      have h2l : post.length ≤ rem.length := (List.dropWhile_sublist _).length_le
      have h3l : 1 ≤ D.length := by
        rcases hDe : D with _ | _
        · exact absurd hDe hDne
        · simp
      omega
    have hinner : sdGo rest.length post [] = [p1] := h1
    have hpost_nd : ∀ c ∈ post, isDelimChar c = false := by
      by_contra hx
      push_neg at hx
      obtain ⟨c, hc, hct⟩ := hx
      have hct2 : isDelimChar c = true := by revert hct; cases isDelimChar c <;> simp
      have h2 := sdGo_two_of_delim post [] rest.length hlen ⟨c, hc, hct2⟩
      rw [hinner] at h2
      simp at h2
    have hp1 : p1 = post := by
      rw [sdGo_no_delim post [] rest.length hlen hpost_nd] at hinner
      injection hinner with h2
      simp at h2
      exact h2.symm
    have hr2 : D ++ (w2 ++ post) = rest := by
      rw [hD_def, hw2_def, hpost_def, hrem_def]
      rw [List.takeWhile_append_dropWhile, List.takeWhile_append_dropWhile]
    refine ⟨pre, D, w2, post, ?_, hpre, hDne, hD, hw2, hpost_nd, ?_, ?_, hp1⟩
    · rw [hdec, ← hr2]
      simp [List.append_assoc]
    · intro c hc
      have hh := List.head?_dropWhile_not isWsChar rem
      rw [← hpost_def, hc] at hh
      simpa using hh
    · rw [← h0]
      rfl

/-! ### C7 assembly -/

theorem parseRangeChars_two_tokens (l : List Char) (t0 t1 : List Char) (a b : Nat)
    (htok : findTokens (pyStrip l) = [t0, t1])
    (h0 : parse_time_to_seconds t0 = some a)
    (h1 : parse_time_to_seconds t1 = some b)
    (hab : a < b) :
    parseRangeChars l = some (a, b) := by
  unfold parseRangeChars
  rcases hsp : splitDelim (pyStrip l) with _ | ⟨p0, _ | ⟨p1, _ | _⟩⟩
  · simp only [hsp, htok, List.getLast?_cons_cons, List.getLast?_singleton, List.headI]
    rw [h0, h1]
    dsimp only
    rw [if_pos hab]
  · simp only [hsp, htok, List.getLast?_cons_cons, List.getLast?_singleton, List.headI]
    rw [h0, h1]
    dsimp only
    rw [if_pos hab]
  case cons.cons.cons => 
    simp only [hsp, htok, List.getLast?_cons_cons, List.getLast?_singleton, List.headI]
    rw [h0, h1]
    dsimp only
    rw [if_pos hab]
  · -- primary [p0, p1]
    rcases hp0 : parse_time_to_seconds p0 with _ | a'
    · simp only [hsp, hp0, htok, List.getLast?_cons_cons, List.getLast?_singleton, List.headI]
      rw [h0, h1]
      dsimp only
      rw [if_pos hab]
    · rcases hp1 : parse_time_to_seconds p1 with _ | b'
      · simp only [hsp, hp0, hp1, htok, List.getLast?_cons_cons, List.getLast?_singleton, List.headI]
        rw [h0, h1]
        dsimp only
        rw [if_pos hab]
      · by_cases hlt : a' < b'
        · simp only [hsp, hp0, hp1, if_pos hlt]
          obtain ⟨pre, D, w2, post, htdec, hpre, hDne, hD, hw2, hpostnd, hposthead,
            hp0eq, hp1eq⟩ := splitDelim_two _ p0 p1 hsp
          have hp0pre : p0 <+: pyStrip l := by
            rw [hp0eq]
            exact (dropTrailingWs_pref pre).trans
              ⟨D ++ w2 ++ post, by rw [htdec]; simp [List.append_assoc]⟩
          have hstrip0 : pyStrip p0 = p0 := by
            apply pyStrip_eq_self_of_ends
            · intro c hc
              have hne : p0 ≠ [] := by intro he; rw [he] at hc; simp at hc
              have hhd := prefix_head?_eq p0 (pyStrip l) hp0pre hne
              exact pyStrip_head_not_ws l c (by rw [hhd]; exact hc)
            · intro c hc
              rw [hp0eq] at hc
              exact dropTrailingWs_getLast_not_ws pre c hc
          have hp0nd : ∀ c ∈ p0, isDelimChar c = false := by
            intro c hc
            rw [hp0eq] at hc
            exact hpre c ((dropTrailingWs_pref pre).subset hc)
          obtain ⟨hp0ne, hp0c⟩ := parse_chars p0 hp0nd hstrip0 a' hp0
          have hp1suf : p1 <:+ pyStrip l := by
            rw [hp1eq]
            exact ⟨pre ++ D ++ w2, by rw [htdec]⟩
          have hstrip1 : pyStrip p1 = p1 := by
            apply pyStrip_eq_self_of_ends
            · intro c hc
              rw [hp1eq] at hc
              exact hposthead c hc
            · intro c hc
              have hne : p1 ≠ [] := by intro he; rw [he] at hc; simp at hc
              have hlst := suffix_getLast?_eq p1 (pyStrip l) hp1suf hne
              exact pyStrip_getLast_not_ws l c (by rw [hlst]; exact hc)
          have hp1nd : ∀ c ∈ p1, isDelimChar c = false := by
            intro c hc
            rw [hp1eq] at hc
            exact hpostnd c hc
          obtain ⟨hp1ne, hp1c⟩ := parse_chars p1 hp1nd hstrip1 b' hp1
          have hp0time : ∀ c ∈ p0, isTimeChar c = true := by
            intro c hc
            rcases hp0c c hc with h | h | h
            · exact digit_is_time c h
            · exact (isHch_facts c h).1
            · exact (isMch_facts c h).1
          have hp1time : ∀ c ∈ p1, isTimeChar c = true := by
            intro c hc
            rcases hp1c c hc with h | h | h
            · exact digit_is_time c h
            · exact (isHch_facts c h).1
            · exact (isMch_facts c h).1
          obtain ⟨w1, hpre_dec, hw1⟩ := dropTrailingWs_decomp pre
          set C := w1 ++ (D ++ w2) with hC_def
          have htC : pyStrip l = p0 ++ (C ++ p1) := by
            rw [htdec, hpre_dec, ← hp0eq, ← hp1eq, hC_def]
            simp [List.append_assoc]
          have hCsep : ∀ c ∈ C, isWsChar c = true ∨ isDelimChar c = true := by
            intro c hc
            rw [hC_def] at hc
            rcases List.mem_append.1 hc with hc | hc
            · exact Or.inl (hw1 c hc)
            · rcases List.mem_append.1 hc with hc | hc
              · exact Or.inr (hD c hc)
              · exact Or.inl (hw2 c hc)
          rcases hCsplit : C.dropWhile isTimeChar with _ | ⟨c, C2⟩
          · exfalso
            rw [List.dropWhile_eq_nil_iff] at hCsplit
            have hall : ∀ x ∈ pyStrip l, isTimeChar x = true := by
              intro x hx
              rw [htC] at hx
              rcases List.mem_append.1 hx with hx | hx
              · exact hp0time x hx
              · rcases List.mem_append.1 hx with hx | hx
                · exact hCsplit x hx
                · exact hp1time x hx
            have hne : pyStrip l ≠ [] := by
              rw [htC]
              intro he
              exact hp0ne (List.append_eq_nil.1 he).1
            rw [findTokens_all_time _ hne hall] at htok
            have hlen := congrArg List.length htok
            simp at hlen
          · set C1 := C.takeWhile isTimeChar with hC1_def
            have hCdec : C = C1 ++ c :: C2 := by
              rw [hC1_def, ← hCsplit]
              exact (List.takeWhile_append_dropWhile _ _).symm
            have hct : isTimeChar c = false := by
              have hh := List.head?_dropWhile_not isTimeChar C
              rw [hCsplit] at hh
              simpa using hh
            have hC1time : ∀ x ∈ C1, isTimeChar x = true :=
              fun x hx => List.all_eq_true.1 List.all_takeWhile x hx
            have hC1glue : ∀ x ∈ C1, isSch x = true ∨ x = ':' := by
              intro x hx
              have hxC : x ∈ C := by
                have hx2 : x ∈ C.takeWhile isTimeChar := by rw [← hC1_def]; exact hx
                exact (List.takeWhile_prefix _).subset hx2
              rcases hCsep x hxC with h | h
              · exact absurd (hC1time x hx) (by simp [ws_not_time x h])
              · exact delim_time_cases x h (hC1time x hx)
            have hC2sep : ∀ x ∈ C2, isWsChar x = true ∨ isDelimChar x = true := by
              intro x hx
              apply hCsep
              rw [hCdec]
              simp [hx]
            have htC2 : pyStrip l = (p0 ++ C1) ++ c :: (C2 ++ p1) := by
              rw [htC, hCdec]
              simp [List.append_assoc]
            have hsingle : findTokens (p0 ++ C1) = [p0 ++ C1] := by
              apply findTokens_all_time
              · intro he
                exact hp0ne (List.append_eq_nil.1 he).1
              · intro x hx
                rcases List.mem_append.1 hx with hx | hx
                · exact hp0time x hx
                · exact hC1time x hx
            have htokens : findTokens (pyStrip l) = [p0 ++ C1] ++ findTokens (C2 ++ p1) := by
              rw [htC2, findTokens_append_cons _ c _ hct, hsingle]
            rw [htokens, List.singleton_append] at htok
            injection htok with ht0 ht1
            obtain ⟨q1, hq1glue, hq1eq⟩ := lastTok C2 p1 t1 hC2sep hp1ne hp1time ht1
            have ha : a = a' := by
              apply parse_extend_eq p0 C1 a a' hp0c hp0ne hC1glue hp0
              rw [ht0]
              exact h0
            have hb : b = b' := by
              rcases q1 with _ | ⟨q, qs⟩
              · rw [hq1eq, List.nil_append] at h1
                rw [h1] at hp1
                exact Option.some.inj hp1
              · exfalso
                apply parse_prefix_garbage (q :: qs) p1 b (by simp) hq1glue hp1c
                rw [← hq1eq]
                exact h1
            rw [ha, hb]
        · simp only [hsp, hp0, hp1, if_neg hlt, htok, List.getLast?_cons_cons, List.getLast?_singleton, List.headI]
          rw [h0, h1]
          dsimp only
          rw [if_pos hab]


/-- C7: when the fallback scan finds exactly two time-like substrings in
the input, the first and the last are used as start and end regardless of
the surrounding text: if both parse and end > start, `parse_range` returns
exactly that pair. -/
theorem C7_two_token_fallback (s : String) (t0 t1 : List Char) (a b : Nat)
    (htok : findTokens (pyStrip s.data) = [t0, t1])
    (h0 : parse_time_to_seconds t0 = some a)
    (h1 : parse_time_to_seconds t1 = some b)
    (hab : a < b) :
    parse_range s = some (a, b) :=
  parseRangeChars_two_tokens s.data t0 t1 a b htok h0 h1 hab

/-- Witness for C7: in `"abc 5 to 90 xyz"` the scan finds exactly the two
tokens `5` and `90`, and the surrounding words are ignored. -/
theorem C7_two_token_fallback_witness :
    parse_range "abc 5 to 90 xyz" = some (5, 90) :=
  C7_two_token_fallback "abc 5 to 90 xyz" ['5'] ['9', '0'] 5 90
    (by decide) (by decide) (by decide) (by decide)

end Clipper
